import Mathlib

/-!
Shallow embedding of the claude-chats session manager (`main.go`) for
verification. Go strings are modeled as lists of characters (UTF-8 byte
order coincides with codepoint order, so Go's lexicographic byte
comparison agrees with character-wise comparison). JSON decoding is
modeled by its result: a line of a session file carries the outcome of
decoding it as a `JSONLMessage` and, independently, as the `{agent_id}`
shape; a manifest file carries the outcome of decoding it as a
`SessionsIndex`. Filesystem failures (remove / write errors) are modeled
by oracles carried in the filesystem value.
-/

abbrev GoStr := List Char

def toL (s : String) : GoStr := s.toList

def jsonlExt : GoStr := toL ".jsonl"
def txtExt : GoStr := toL ".txt"
def jsonExt : GoStr := toL ".json"
def mdExt : GoStr := toL ".md"
def agentPre : GoStr := toL "agent-"

/-- Whitespace as recognized by Go's `unicode.IsSpace` (Latin-1 range). -/
def goIsSpace (c : Char) : Bool :=
  c = ' ' || c = '\t' || c = '\n' || c = '\r' || c = Char.ofNat 11 ||
  c = Char.ofNat 12 || c = Char.ofNat 0x85 || c = Char.ofNat 0xA0

/-- Model of Go `strings.Index`: position of the first occurrence of
`needle`, scanning left to right (`none` for Go's `-1`). -/
def indexOfAux (needle : GoStr) : GoStr → Nat → Option Nat
  | [], i => if needle.isPrefixOf ([] : GoStr) then some i else none
  | c :: t, i => if needle.isPrefixOf (c :: t) then some i else indexOfAux needle t (i + 1)

def indexOf (hay needle : GoStr) : Option Nat := indexOfAux needle hay 0

/-- Model of Go `strings.TrimSuffix`. -/
def trimSuffix (s suf : GoStr) : GoStr :=
  if suf.isSuffixOf s then s.take (s.length - suf.length) else s

/-- Model of Go `strings.TrimSpace`. -/
def goTrimSpace (s : GoStr) : GoStr :=
  ((s.dropWhile goIsSpace).reverse.dropWhile goIsSpace).reverse

/-- Model of Go `strings.Fields`: the whitespace-separated words. -/
def fieldsAux : GoStr → GoStr → List GoStr
  | [], acc => if acc.isEmpty then [] else [acc.reverse]
  | c :: cs, acc =>
    if goIsSpace c then
      if acc.isEmpty then fieldsAux cs [] else acc.reverse :: fieldsAux cs []
    else fieldsAux cs (c :: acc)

def goFields (s : GoStr) : List GoStr := fieldsAux s []

/-- Model of Go `strings.Join(ws, " ")`. -/
def joinSp : List GoStr → GoStr
  | [] => []
  | [w] => w
  | w :: ws => w ++ ' ' :: joinSp ws

/-- Does a pattern `pre*suf` (as used by the `filepath.Glob` call on the
todos directory) match a file name? The `*` matches any run of
non-separator characters and names contain no separator. -/
def goMatchStar (pre suf s : GoStr) : Bool :=
  pre.isPrefixOf s && suf.isSuffixOf (s.drop pre.length)

/-- Decoded form of one JSONL record, mirroring the Go `JSONLMessage`
struct (the nested `message.content` field is flattened to `content`). -/
structure JSONLMessage where
  type : GoStr := []
  version : GoStr := []
  slug : GoStr := []
  isMeta : Bool := false
  summary : GoStr := []
  content : GoStr := []
deriving DecidableEq

/-- One line of a session file: the decode outcome for each of the two
decoders applied to it in the source (`none` = `json.Unmarshal` error). -/
structure Line where
  msg : Option JSONLMessage := none
  agentId : Option GoStr := none
deriving DecidableEq

/-- Mirror of the Go `SessionEntry` struct. -/
structure SessionEntry where
  sessionId : GoStr := []
  fullPath : GoStr := []
  fileMtime : Int := 0
  firstPrompt : GoStr := []
  summary : GoStr := []
  messageCount : Int := 0
  created : GoStr := []
  modified : GoStr := []
  gitBranch : GoStr := []
  projectPath : GoStr := []
  isSidechain : Bool := false
deriving DecidableEq

/-- Mirror of the Go `SessionsIndex` struct. -/
structure SessionsIndex where
  version : Int := 0
  entries : List SessionEntry := []
  originalPath : GoStr := []
deriving DecidableEq

/-- A regular file: decoded lines plus the formatted modification time
(the fixed-format rendering returned by `getChatTimestamp`). -/
structure FileNode where
  lines : List Line := []
  mtime : GoStr := []
deriving DecidableEq

/-- One project directory under `projects/`: its regular files, its
subdirectories (with the flag recording whether a `tool-results`
subdirectory exists inside), and its `sessions-index.json` manifest
(`none` = absent, `some none` = unreadable or unparseable,
`some (some m)` = decodes to `m`). -/
structure Project where
  name : GoStr
  files : List (GoStr × FileNode) := []
  dirs : List (GoStr × Bool) := []
  manifest : Option (Option SessionsIndex) := none
deriving DecidableEq

/-- A path the resolver can produce, one constructor per path shape of
`findRelatedFiles`:
`sessionFile p u` = `projects/p/u.jsonl`; `chatDir p u` = `projects/p/u`;
`toolResults p u` = `projects/p/u/tool-results`; `plan s` = `plans/s.md`;
`debug u` = `debug/u.txt`; `todo t` = `todos/t`;
`sessionEnv u` = `session-env/u`; `fileHistory u` = `file-history/u`;
`agentMem a` = `agents/a/memory-local.md`. -/
inductive RPath where
  | sessionFile (proj uuid : GoStr)
  | chatDir (proj uuid : GoStr)
  | toolResults (proj uuid : GoStr)
  | plan (slug : GoStr)
  | debug (uuid : GoStr)
  | todo (name : GoStr)
  | sessionEnv (uuid : GoStr)
  | fileHistory (uuid : GoStr)
  | agentMem (agentId : GoStr)
deriving DecidableEq

/-- The filesystem tree rooted at the Claude directory, restricted to the
subtrees the program touches. `projects = none` models a read error on
the projects directory. Directory listings are in directory order
(Go's `os.ReadDir` and `filepath.Glob` return sorted listings, so order
is a fixed attribute of the tree). `removeFails` / `writeFails` are
environment oracles for `os.RemoveAll` / `os.WriteFile` errors. -/
structure FS where
  projects : Option (List Project) := some []
  debugFiles : List GoStr := []
  todoFiles : List GoStr := []
  sessionEnvDirs : List GoStr := []
  fileHistoryDirs : List GoStr := []
  planFiles : List GoStr := []
  agentLocalMem : List GoStr := []
  removeFails : RPath → Bool := fun _ => false
  writeFails : GoStr → Bool := fun _ => false

def fsProjects (fs : FS) : List Project := fs.projects.getD []

/-- Mirror of the Go `Chat` struct (the `Files` field is never assigned
in the source and stays empty). -/
structure Chat where
  uuid : GoStr
  title : GoStr := []
  timestamp : GoStr := []
  project : GoStr := []
  version : GoStr := []
  lineCount : Nat := 0
  path : GoStr := []
  files : List GoStr := []
deriving DecidableEq

/-! ### MetadataExtractor (`cleanSystemTags`, `getChatTitle`,
`getChatVersion`, `countLines`, `getSlugFromChat`, `parseAgentIDs`) -/

/-- The inner loop of `cleanSystemTags` for one tag pair: repeatedly find
the opening tag, cut up to the end of the first closing tag found at or
after it, or truncate at the opening tag when no closing tag follows.
Each removal shortens the string, so `length + 1` fuel always suffices. -/
def stripTagLoop (op cl : GoStr) : Nat → GoStr → GoStr
  | 0, s => s
  | fuel + 1, s =>
    match indexOf s op with
    | none => s
    | some start =>
      match indexOf (s.drop start) cl with
      | none => s.take start
      | some e => stripTagLoop op cl fuel (s.take start ++ s.drop (start + e + cl.length))

def stripTag (op cl s : GoStr) : GoStr := stripTagLoop op cl (s.length + 1) s

def systemTagPairs : List (GoStr × GoStr) :=
  [(toL "<local-command-caveat>", toL "</local-command-caveat>"),
   (toL "<command-name>", toL "</command-name>"),
   (toL "<command-message>", toL "</command-message>"),
   (toL "<command-args>", toL "</command-args>"),
   (toL "<local-command-stdout>", toL "</local-command-stdout>"),
   (toL "<system-reminder>", toL "</system-reminder>")]

def headIsLt (s : GoStr) : Bool :=
  match s with
  | '<' :: _ => true
  | _ => false

def cleanSystemTags (content : GoStr) : GoStr :=
  let c1 := systemTagPairs.foldl (fun acc pr => stripTag pr.1 pr.2 acc) content
  let c2 := goTrimSpace c1
  let c3 := c2.map (fun c => if c = '\n' then ' ' else c)
  let c4 := c3.filter (fun c => decide (c ≠ '\r'))
  let c5 := joinSp (goFields c4)
  if c5.isEmpty || headIsLt c5 then [] else c5

def titleFallback (firstSummary : GoStr) : GoStr :=
  if firstSummary.isEmpty then toL "[No title]" else firstSummary

/-- The scanner loop of `getChatTitle`. `lineNum` is the count of lines
already consumed. Line 1 is skipped unconditionally, unparseable lines
are skipped (Go's `continue` also skips the `lineNum > 100` bound
check), and the bound check runs only at the end of a fully processed
iteration, exactly as in the source. -/
def titleLoop : List Line → Nat → GoStr → GoStr
  | [], _, firstSummary => titleFallback firstSummary
  | l :: ls, lineNum, firstSummary =>
    let n := lineNum + 1
    if n = 1 then titleLoop ls n firstSummary
    else
      match l.msg with
      | none => titleLoop ls n firstSummary
      | some msg =>
        let fsum :=
          if msg.type = toL "summary" ∧ msg.summary ≠ [] ∧ firstSummary = []
          then msg.summary else firstSummary
        if msg.type = toL "user" ∧ msg.isMeta = false then
          let content := cleanSystemTags msg.content
          if content ≠ [] then content
          else if n > 100 then titleFallback fsum else titleLoop ls n fsum
        else if n > 100 then titleFallback fsum else titleLoop ls n fsum

/-- `getChatTitle`; the argument is `none` when opening the file fails. -/
def getChatTitle : Option (List Line) → GoStr
  | none => toL "[Error opening file]"
  | some lines => titleLoop lines 0 []

/-- The scanner loop of `getChatVersion`, mirroring the source's
line-counting loop. -/
def versionLoop : List Line → Nat → GoStr
  | [], _ => []
  | l :: ls, lineNum =>
    let n := lineNum + 1
    if n = 2 then
      match l.msg with
      | none => []
      | some msg => msg.version
    else if n > 2 then []
    else versionLoop ls n

/-- `getChatVersion`; the argument is `none` when opening the file fails. -/
def getChatVersion : Option (List Line) → GoStr
  | none => []
  | some lines => versionLoop lines 0

def countLines : Option (List Line) → Nat
  | none => 0
  | some lines => lines.length

/-- `getChatTimestamp` for a file that exists: the formatted mtime. -/
def getChatTimestamp (node : FileNode) : GoStr := node.mtime

/-- `getSlugFromChat`: first parseable record with a non-empty slug. -/
def getSlugFromChat : List Line → GoStr
  | [] => []
  | l :: ls =>
    match l.msg with
    | none => getSlugFromChat ls
    | some msg => if msg.slug ≠ [] then msg.slug else getSlugFromChat ls

def parseAgentIDsAux : List Line → List GoStr → List GoStr
  | [], acc => acc
  | l :: ls, acc =>
    match l.agentId with
    | none => parseAgentIDsAux ls acc
    | some a =>
      if a ≠ [] ∧ a ∉ acc then parseAgentIDsAux ls (acc ++ [a])
      else parseAgentIDsAux ls acc

/-- `parseAgentIDs`: distinct non-empty agent ids in order of first
occurrence. -/
def parseAgentIDs (lines : List Line) : List GoStr := parseAgentIDsAux lines []

/-! ### SessionScanner (`findAllChats`) -/

/-- Lexicographic order on modeled strings, agreeing with Go's bytewise
string comparison on valid UTF-8. -/
def strLe : GoStr → GoStr → Bool
  | [], _ => true
  | _ :: _, [] => false
  | a :: as, b :: bs =>
    if a.toNat < b.toNat then true
    else if b.toNat < a.toNat then false
    else strLe as bs

def chatOfFile (projName fname : GoStr) (node : FileNode) : Chat :=
  { uuid := trimSuffix fname jsonlExt
    title := getChatTitle (some node.lines)
    timestamp := getChatTimestamp node
    project := projName
    version := getChatVersion (some node.lines)
    lineCount := countLines (some node.lines)
    path := projName ++ '/' :: fname }

/-- The per-project part of `findAllChats`: glob `*.jsonl`, strip the
extension, drop reserved `agent-` ids, build a `Chat` per file. -/
def projectChats (p : Project) : List Chat :=
  p.files.filterMap (fun f =>
    if jsonlExt.isSuffixOf f.1 then
      if agentPre.isPrefixOf (trimSuffix f.1 jsonlExt) then none
      else some (chatOfFile p.name f.1 f.2)
    else none)

/-- Insertion realizing the `sort.Slice` ordering contract of the source
(comparator `chats[i].Timestamp > chats[j].Timestamp`): the result is
non-increasing by timestamp. -/
def insertChat (c : Chat) : List Chat → List Chat
  | [] => [c]
  | d :: ds => if strLe d.timestamp c.timestamp then c :: d :: ds else d :: insertChat c ds

def sortChats : List Chat → List Chat
  | [] => []
  | c :: cs => insertChat c (sortChats cs)

/-- `findAllChats`: scan every project directory, collect sessions, sort
newest first. A read error on the projects directory yields the empty
list. -/
def findAllChats (fs : FS) : List Chat :=
  match fs.projects with
  | none => []
  | some ps => sortChats (ps.flatMap projectChats)

/-! ### RelatedFileResolver (`findRelatedFiles`) -/

def projFile (p : Project) (fname : GoStr) : Option FileNode :=
  (p.files.find? (fun f => f.1 == fname)).map (fun f => f.2)

def projHasDir (p : Project) (dname : GoStr) : Bool :=
  (p.dirs.find? (fun d => d.1 == dname)).isSome

def projDirTR (p : Project) (dname : GoStr) : Bool :=
  match p.dirs.find? (fun d => d.1 == dname) with
  | some d => d.2
  | none => false

/-- The matches of the glob `projects/*/<uuid>.jsonl`, with the matched
file's contents (the loop in the source keeps the last match's path for
slug extraction). -/
def primaryMatches (fs : FS) (uuid : GoStr) : List (Project × FileNode) :=
  (fsProjects fs).filterMap (fun p =>
    (projFile p (uuid ++ jsonlExt)).map (fun n => (p, n)))

/-- Step 1 of `findRelatedFiles`: each matched primary file, its chat
directory if present, and its tool-results directory if present. -/
def resolveMain (fs : FS) (uuid : GoStr) : List RPath :=
  (primaryMatches fs uuid).flatMap (fun pn =>
    [RPath.sessionFile pn.1.name uuid]
    ++ (if projHasDir pn.1 uuid then [RPath.chatDir pn.1.name uuid] else [])
    ++ (if projDirTR pn.1 uuid then [RPath.toolResults pn.1.name uuid] else []))

/-- Step 2 of `findRelatedFiles`: the plan file named by the slug of the
last-matched primary file, if both exist. -/
def resolvePlan (fs : FS) (uuid : GoStr) : List RPath :=
  match (primaryMatches fs uuid).getLast? with
  | some pn =>
    if getSlugFromChat pn.2.lines ≠ [] ∧
        (getSlugFromChat pn.2.lines ++ mdExt) ∈ fs.planFiles then
      [RPath.plan (getSlugFromChat pn.2.lines)]
    else []
  | none => []

/-- Step 3 of `findRelatedFiles`: the debug log if present. -/
def resolveDebug (fs : FS) (uuid : GoStr) : List RPath :=
  if (uuid ++ txtExt) ∈ fs.debugFiles then [RPath.debug uuid] else []

/-- Step 4 of `findRelatedFiles`: every matching todo file. -/
def resolveTodo (fs : FS) (uuid : GoStr) : List RPath :=
  (fs.todoFiles.filter (fun t => goMatchStar uuid jsonExt t)).map RPath.todo

/-- Step 5 of `findRelatedFiles`: the session-env directory if present. -/
def resolveEnv (fs : FS) (uuid : GoStr) : List RPath :=
  if uuid ∈ fs.sessionEnvDirs then [RPath.sessionEnv uuid] else []

/-- Step 6 of `findRelatedFiles`: the file-history directory if present. -/
def resolveHist (fs : FS) (uuid : GoStr) : List RPath :=
  if uuid ∈ fs.fileHistoryDirs then [RPath.fileHistory uuid] else []

/-- Step 7 of `findRelatedFiles`: the local-scope memory file of each
distinct agent id in the last-matched primary file. -/
def resolveAgent (fs : FS) (uuid : GoStr) : List RPath :=
  match (primaryMatches fs uuid).getLast? with
  | some pn =>
    (parseAgentIDs pn.2.lines).filterMap (fun a =>
      if a ∈ fs.agentLocalMem then some (RPath.agentMem a) else none)
  | none => []

/-- `findRelatedFiles`: the cascading-deletion resolver, steps 1-7 in
source order. -/
def findRelatedFiles (fs : FS) (uuid : GoStr) : List RPath :=
  resolveMain fs uuid ++ resolvePlan fs uuid ++ resolveDebug fs uuid ++
  resolveTodo fs uuid ++ resolveEnv fs uuid ++ resolveHist fs uuid ++ resolveAgent fs uuid

/-! ### Recursive removal (`os.RemoveAll` on resolver paths) -/

/-- The effect of `os.RemoveAll` on one resolver path, restricted to a
project directory. Removing a chat directory removes everything inside
it (including `tool-results`); removing a missing path is a no-op, as
`os.RemoveAll` returns nil for nonexistent paths. -/
def projUpd (r : RPath) (p : Project) : Project :=
  match r with
  | .sessionFile pn u =>
    if p.name = pn then
      { p with files := p.files.filter (fun f => decide (f.1 ≠ u ++ jsonlExt)) }
    else p
  | .chatDir pn u =>
    if p.name = pn then
      { p with dirs := p.dirs.filter (fun d => decide (d.1 ≠ u)) }
    else p
  | .toolResults pn u =>
    if p.name = pn then
      { p with dirs := p.dirs.map (fun d => if d.1 = u then (d.1, false) else d) }
    else p
  | _ => p

/-- The effect of a successful `os.RemoveAll` on one resolver path. -/
def removeRPath (fs : FS) (r : RPath) : FS :=
  { fs with
    projects := fs.projects.map (List.map (projUpd r))
    planFiles :=
      match r with
      | .plan s => fs.planFiles.filter (fun f => decide (f ≠ s ++ mdExt))
      | _ => fs.planFiles
    debugFiles :=
      match r with
      | .debug u => fs.debugFiles.filter (fun f => decide (f ≠ u ++ txtExt))
      | _ => fs.debugFiles
    todoFiles :=
      match r with
      | .todo t => fs.todoFiles.filter (fun f => decide (f ≠ t))
      | _ => fs.todoFiles
    sessionEnvDirs :=
      match r with
      | .sessionEnv u => fs.sessionEnvDirs.filter (fun f => decide (f ≠ u))
      | _ => fs.sessionEnvDirs
    fileHistoryDirs :=
      match r with
      | .fileHistory u => fs.fileHistoryDirs.filter (fun f => decide (f ≠ u))
      | _ => fs.fileHistoryDirs
    agentLocalMem :=
      match r with
      | .agentMem a => fs.agentLocalMem.filter (fun f => decide (f ≠ a))
      | _ => fs.agentLocalMem }

/-- The removal loop of `deleteSelectedChats`: remove each path in turn,
stopping at the first `os.RemoveAll` error (the oracle). Returns the
mutated filesystem and the failing path, if any. -/
def removeFiles (fs : FS) : List RPath → FS × Option RPath
  | [] => (fs, none)
  | p :: ps => if fs.removeFails p then (fs, some p) else removeFiles (removeRPath fs p) ps

/-! ### IndexSynchronizer (`updateSessionsIndex`) -/

inductive IdxErr where
  | readDirFailed
  | writeFailed (proj : GoStr)
deriving DecidableEq

/-- The per-project loop of `updateSessionsIndex`. Besides the updated
project list it returns the names of the projects whose manifest was
rewritten (the `os.WriteFile` calls actually made) and the first write
error, which aborts the loop leaving later projects untouched. -/
def updIdx (uuid : GoStr) (wf : GoStr → Bool) :
    List Project → List Project × List GoStr × Option IdxErr
  | [] => ([], [], none)
  | p :: ps =>
    match p.manifest with
    | some (some man) =>
      let newEntries := man.entries.filter (fun e => decide (e.sessionId ≠ uuid))
      if newEntries.length < man.entries.length then
        if wf p.name then (p :: ps, [], some (.writeFailed p.name))
        else
          let p' := { p with manifest := some (some { man with entries := newEntries }) }
          let rest := updIdx uuid wf ps
          (p' :: rest.1, p.name :: rest.2.1, rest.2.2)
      else
        let rest := updIdx uuid wf ps
        (p :: rest.1, rest.2.1, rest.2.2)
    | _ =>
      let rest := updIdx uuid wf ps
      (p :: rest.1, rest.2.1, rest.2.2)

/-- `updateSessionsIndex`: remove `uuid` from every project manifest.
Absent, unreadable or unparseable manifests are skipped; a manifest is
rewritten only when at least one entry was removed. -/
def updateSessionsIndex (fs : FS) (uuid : GoStr) : FS × List GoStr × Option IdxErr :=
  match fs.projects with
  | none => (fs, [], some .readDirFailed)
  | some ps =>
    let rest := updIdx uuid fs.writeFails ps
    ({ fs with projects := some rest.1 }, rest.2.1, rest.2.2)

/-! ### DeletionExecutor (`deleteSelectedChats`) -/

inductive DelErr where
  | removeFailed (p : RPath)
  | indexFailed (e : IdxErr)
deriving DecidableEq

/-- The message produced by the deletion command: `deleteCompleteMsg`
with the count, or `errMsg` (which carries only the error). -/
inductive DelMsg where
  | complete (count : Nat)
  | err (e : DelErr)
deriving DecidableEq

/-- The per-session body of `deleteSelectedChats`: resolve the related
files, remove each of them, then synchronize the manifests, stopping at
the first error. -/
def delStep (fs : FS) (chat : Chat) : FS × Option DelErr :=
  match removeFiles fs (findRelatedFiles fs chat.uuid) with
  | (fs1, some p) => (fs1, some (.removeFailed p))
  | (fs1, none) =>
    match updateSessionsIndex fs1 chat.uuid with
    | (fs2, _, some e) => (fs2, some (.indexFailed e))
    | (fs2, _, none) => (fs2, none)

/-- The `deleteSelectedChats` command: iterate over the selected indices
(a snapshot of `m.selected`), skip indices at or past the end of the
chat list, run `delStep` per session, and stop at the first error,
which is returned without the count. `none` models the runtime panic of
`m.chats[idx]` on a negative index, which the `idx < len(m.chats)`
guard does not exclude. -/
def deleteSelectedChats (chats : List Chat) :
    List Int → FS → Nat → Option (FS × DelMsg)
  | [], fs, count => some (fs, .complete count)
  | idx :: rest, fs, count =>
    if h1 : idx < (chats.length : Int) then
      if h2 : idx < 0 then none
      else
        match delStep fs (chats.get ⟨idx.toNat, by omega⟩) with
        | (fs1, some e) => some (fs1, .err e)
        | (fs1, none) => deleteSelectedChats chats rest fs1 (count + 1)
    else deleteSelectedChats chats rest fs count

/-! ### ListController (the bubbletea `model` and `Update`) -/

/-- The key inputs dispatched by `Update`'s `msg.String()` switch. The
clipboard call's outcome is carried on the copy key, since it happens
synchronously inside the handler. -/
inductive Key where
  | up | down | pgdown | pgup | home | endKey | ctrlD | ctrlU
  | space | selectAll | del | refresh | copy (ok : Bool)
  | enter | esc | keyN | quit | other
deriving DecidableEq

/-- The status-line error values (`m.error` as a Go string). -/
inductive ErrVal where
  | copyFailed
  | del (e : DelErr)
deriving DecidableEq

/-- The events consumed by `Update`. -/
inductive Msg where
  | winSize (w h : Int)
  | key (k : Key)
  | deleteComplete (count : Nat)
  | errMsg (e : DelErr)
  | clearCopied (id : Int)
  | clearDelete (id : Int)
deriving DecidableEq

/-- The commands returned by `Update` (`tea.Cmd`): the async deletion,
quitting, and the two `tea.Tick` expiry timers with their captured
generation ids. -/
inductive Cmd where
  | noCmd
  | quitCmd
  | startDelete
  | tickCopied (id : Int)
  | tickDelete (id : Int)
deriving DecidableEq

/-- Mirror of the Go `model` struct. `selected` models the
`map[int]bool` key set (keys are unique by construction); `copiedMsg`
uses `[]` for the cleared Go empty string, `error` uses `none`. -/
structure TuiModel where
  chats : List Chat := []
  cursor : Int := 0
  selected : List Int := []
  confirmDelete : Bool := false
  deleting : Bool := false
  deleted : Nat := 0
  error : Option ErrVal := none
  width : Int := 0
  height : Int := 0
  scrollOffset : Int := 0
  copiedMsg : GoStr := []
  deleteTimer : Int := 0
  copyTimer : Int := 0
deriving DecidableEq

/-- The `visibleHeight` computation repeated in the navigation handlers
and `adjustScroll`: terminal height minus the chrome, floored to 10 when
that leaves less than one row. -/
def visibleHeight (h : Int) : Int := if h - 8 < 1 then 10 else h - 8

/-- `adjustScroll`: recompute the scroll window start so the cursor is
inside `[scrollOffset, scrollOffset + visibleHeight)`. -/
def adjustScroll (m : TuiModel) : TuiModel :=
  if m.cursor < m.scrollOffset then { m with scrollOffset := m.cursor }
  else if m.cursor ≥ m.scrollOffset + visibleHeight m.height then
    { m with scrollOffset := m.cursor - visibleHeight m.height + 1 }
  else m

/-- `m.selected[i] = true` on the map: insert the key if absent. -/
def selInsert (s : List Int) (i : Int) : List Int := if i ∈ s then s else s ++ [i]

/-- `delete(m.selected, i)` on the map. -/
def selErase (s : List Int) (i : Int) : List Int := s.filter (fun j => decide (j ≠ i))

/-- The select-all loop `for i := range m.chats { m.selected[i] = true }`. -/
def selectAllFold (s : List Int) (n : Nat) : List Int :=
  (List.range n).foldl (fun acc i => selInsert acc (Int.ofNat i)) s

/-- `initialModel`: scan once, empty selection, zero-valued fields. -/
def initialModel (fs : FS) : TuiModel := { chats := findAllChats fs, selected := [] }

/-- The confirmation-dialog branch of `Update`: enter confirms, esc and
n cancel, every other key is ignored. -/
def updateConfirm (m : TuiModel) : Key → TuiModel × Cmd
  | .enter => (m, .startDelete)
  | .esc => ({ m with confirmDelete := false }, .noCmd)
  | .keyN => ({ m with confirmDelete := false }, .noCmd)
  | _ => (m, .noCmd)

/-- The pgdown / ctrl+f handler body. -/
def pageDownCursor (m : TuiModel) (step : Int) : Int :=
  if m.cursor + step ≥ (m.chats.length : Int) then (m.chats.length : Int) - 1
  else m.cursor + step

/-- The pgup / ctrl+b handler body. -/
def pageUpCursor (m : TuiModel) (step : Int) : Int :=
  if m.cursor - step < 0 then 0 else m.cursor - step

/-- The normal-mode key dispatch of `Update`. The result is `none`
exactly when the handler would panic (the `m.chats[m.cursor]` access in
the copy handler with a negative cursor). -/
def updateBrowse (fs : FS) (m : TuiModel) : Key → Option (TuiModel × Cmd)
  | .quit => some (m, .quitCmd)
  | .up =>
    if 0 < m.cursor then some (adjustScroll { m with cursor := m.cursor - 1 }, .noCmd)
    else some (m, .noCmd)
  | .down =>
    if m.cursor < (m.chats.length : Int) - 1 then
      some (adjustScroll { m with cursor := m.cursor + 1 }, .noCmd)
    else some (m, .noCmd)
  | .pgdown =>
    some (adjustScroll { m with cursor := pageDownCursor m (visibleHeight m.height) }, .noCmd)
  | .pgup =>
    some (adjustScroll { m with cursor := pageUpCursor m (visibleHeight m.height) }, .noCmd)
  | .home => some (adjustScroll { m with cursor := 0 }, .noCmd)
  | .endKey =>
    some (adjustScroll (if 0 < m.chats.length then
      { m with cursor := (m.chats.length : Int) - 1 } else m), .noCmd)
  | .ctrlD =>
    some (adjustScroll { m with cursor := pageDownCursor m (visibleHeight m.height / 2) },
          .noCmd)
  | .ctrlU =>
    some (adjustScroll { m with cursor := pageUpCursor m (visibleHeight m.height / 2) },
          .noCmd)
  | .space =>
    if m.cursor ∈ m.selected then
      some ({ m with selected := selErase m.selected m.cursor }, .noCmd)
    else some ({ m with selected := selInsert m.selected m.cursor }, .noCmd)
  | .selectAll =>
    if m.chats.length = 0 then some (m, .noCmd)
    else if m.selected.length = m.chats.length then
      some ({ m with selected := [] }, .noCmd)
    else some ({ m with selected := selectAllFold m.selected m.chats.length }, .noCmd)
  | .del =>
    if 0 < m.selected.length then some ({ m with confirmDelete := true }, .noCmd)
    else some (m, .noCmd)
  | .refresh =>
    some ({ m with chats := findAllChats fs, selected := [], cursor := 0,
                   scrollOffset := 0, error := none, deleted := 0, copiedMsg := [] },
          .noCmd)
  | .copy ok =>
    if m.cursor < (m.chats.length : Int) then
      if m.cursor < 0 then none
      else
        match m.chats[m.cursor.toNat]? with
        | none => none
        | some chat =>
          if ok then
            some ({ m with copyTimer := m.copyTimer + 1,
                           copiedMsg := toL "Chat UUID copied: " ++ chat.uuid,
                           error := none, deleted := 0 },
                  .tickCopied (m.copyTimer + 1))
          else some ({ m with error := some .copyFailed }, .noCmd)
    else some (m, .noCmd)
  | .enter => some (m, .noCmd)
  | .esc => some (m, .noCmd)
  | .keyN => some (m, .noCmd)
  | .other => some (m, .noCmd)

/-- The `deleteCompleteMsg` handler: reload, reset selection and window,
bump the delete-message generation, quit when nothing is left. -/
def updateDeleteComplete (fs : FS) (m : TuiModel) (count : Nat) : TuiModel × Cmd :=
  let chats1 := findAllChats fs
  let m1 := { m with deleting := false, deleted := count, deleteTimer := m.deleteTimer + 1,
                     chats := chats1, selected := [], cursor := 0, scrollOffset := 0,
                     confirmDelete := false, error := none, copiedMsg := [] }
  if chats1.length = 0 then (m1, .quitCmd) else (m1, .tickDelete (m.deleteTimer + 1))

/-- The Go `model.Update` function. The filesystem is passed for the
handlers that rescan (`r`, `deleteCompleteMsg`). -/
def update (fs : FS) (m : TuiModel) : Msg → Option (TuiModel × Cmd)
  | .winSize w h => some ({ m with width := w, height := h }, .noCmd)
  | .key k =>
    if m.confirmDelete then some (updateConfirm m k) else updateBrowse fs m k
  | .deleteComplete count => some (updateDeleteComplete fs m count)
  | .errMsg e => some ({ m with deleting := false, error := some (.del e) }, .noCmd)
  | .clearCopied id =>
    if id = m.copyTimer then some ({ m with copiedMsg := [] }, .noCmd) else some (m, .noCmd)
  | .clearDelete id =>
    if id = m.deleteTimer then some ({ m with deleted := 0 }, .noCmd) else some (m, .noCmd)

/-! ### Claim-level predicates and concrete fixtures -/

/-- Entries of a project's manifest, when it exists and parses. -/
def manEntries (p : Project) : List SessionEntry :=
  match p.manifest with
  | some (some m) => m.entries
  | _ => []

/-- No manifest entry for `uuid` remains anywhere. -/
def noManifestEntry (fs : FS) (uuid : GoStr) : Prop :=
  ∀ p ∈ fsProjects fs, ∀ e ∈ manEntries p, e.sessionId ≠ uuid

instance (fs : FS) (uuid : GoStr) : Decidable (noManifestEntry fs uuid) := by
  unfold noManifestEntry; infer_instance

/-- All traces of session `uuid` are gone from the filesystem: no primary
file in any project, no debug file, no matching todo file, no
session-env or file-history directory, and no manifest entry. -/
def cleanFor (fs : FS) (uuid : GoStr) : Prop :=
  (∀ p ∈ fsProjects fs, ∀ f ∈ p.files, f.1 ≠ uuid ++ jsonlExt) ∧
  (uuid ++ txtExt) ∉ fs.debugFiles ∧
  (∀ t ∈ fs.todoFiles, goMatchStar uuid jsonExt t = false) ∧
  uuid ∉ fs.sessionEnvDirs ∧
  uuid ∉ fs.fileHistoryDirs ∧
  noManifestEntry fs uuid

instance (fs : FS) (uuid : GoStr) : Decidable (cleanFor fs uuid) := by
  unfold cleanFor; infer_instance

/-- Does `updateSessionsIndex` have an entry to remove in this project's
manifest (the condition under which the source rewrites it)? -/
def manifestMatches (uuid : GoStr) (p : Project) : Bool :=
  match p.manifest with
  | some (some m) => m.entries.any (fun e => e.sessionId == uuid)
  | _ => false

/-- The count a batch reports on success: the number of selected indices
inside the chat list. -/
def validCount (chats : List Chat) (batch : List Int) : Nat :=
  (batch.filter (fun i => decide (i < (chats.length : Int)))).length

/-- The count carried by a deletion result message, if any. -/
def delMsgCount : DelMsg → Option Nat
  | .complete n => some n
  | .err _ => none

/-- The version algorithm in the spec's words: decode only record 2 and
return its version field, or empty on any parse or read error or when
the file has fewer than 2 records. -/
def specExtractVersion : Option (List Line) → GoStr
  | none => []
  | some lines =>
    match lines.get? 1 with
    | none => []
    | some l =>
      match l.msg with
      | none => []
      | some m => m.version

/-- Which key transitions of the Browsing state run `adjustScroll`:
every paging and jumping key, and a cursor move that actually moves. -/
def navAdjusts (m : TuiModel) : Key → Bool
  | .pgdown => true
  | .pgup => true
  | .home => true
  | .endKey => true
  | .ctrlD => true
  | .ctrlU => true
  | .up => decide (0 < m.cursor)
  | .down => decide (m.cursor < (m.chats.length : Int) - 1)
  | _ => false

/-- One controller step, total: a panicking step keeps the state (used
only to chain concrete states in closed statements). -/
def stepMsg (fs : FS) (m : TuiModel) (msg : Msg) : TuiModel :=
  ((update fs m msg).getD (m, Cmd.noCmd)).1

def mkFile (s : String) : GoStr × FileNode := (toL s, {})

/-- C4 scenario: record 1 is a file-history snapshot, record 2 the first
user message. -/
def snapshotLine : Line :=
  { msg := some { type := toL "file-history-snapshot" }, agentId := some [] }

def helloLine : Line :=
  { msg := some { type := toL "user", version := toL "2.1.30", content := toL "Hello" },
    agentId := some [] }

def scenarioLines : List Line := [snapshotLine, helloLine]

/-- Witness filesystem for the scanner claims: one project, one session. -/
def fsW6 : FS :=
  { projects := some [{ name := toL "proj-A",
                        files := [(toL "abc.jsonl",
                                   { lines := [], mtime := toL "2024-01-02 03:04:05" })] }] }

def chatW6 : Chat :=
  chatOfFile (toL "proj-A") (toL "abc.jsonl")
    { lines := [], mtime := toL "2024-01-02 03:04:05" }

def entryX : SessionEntry := { sessionId := toL "x" }
def entryY : SessionEntry := { sessionId := toL "y" }

/-- Witness filesystem for the index-synchronizer claim: a manifest with
a matching entry, a corrupt manifest, and a manifest with no match. -/
def fsW3 : FS :=
  { projects := some
      [{ name := toL "p1", manifest := some (some { entries := [entryX, entryY] }) },
       { name := toL "p2", manifest := some none },
       { name := toL "p3", manifest := some (some { entries := [entryY] }) }] }

def nodeW2 : FileNode := {}

/-- Witness filesystem for the deletion claims: session `x` with a chat
directory, tool results, debug log, todo file, env and history
directories, and a manifest entry. -/
def fsW2 : FS :=
  { projects := some [{ name := toL "p",
                        files := [(toL "x.jsonl", nodeW2)],
                        dirs := [(toL "x", true)],
                        manifest := some (some { entries := [entryX, entryY] }) }],
    debugFiles := [toL "x.txt"],
    todoFiles := [toL "x-agent.json"],
    sessionEnvDirs := [toL "x"],
    fileHistoryDirs := [toL "x"] }

def chatW2 : Chat := chatOfFile (toL "p") (toL "x.jsonl") nodeW2

def nodeE : FileNode := {}

/-- Counterexample filesystem for the batch-abort claim: two sessions,
with removal of the second one's primary file failing. -/
def fsE : FS :=
  { projects := some [{ name := toL "p",
                        files := [(toL "a.jsonl", nodeE), (toL "b.jsonl", nodeE)] }],
    removeFails := fun r => r == RPath.sessionFile (toL "p") (toL "b") }

def chatsE : List Chat :=
  [chatOfFile (toL "p") (toL "a.jsonl") nodeE,
   chatOfFile (toL "p") (toL "b.jsonl") nodeE]

/-- The filesystem after the first session of `chatsE` was fully deleted
and the second one's removal failed. -/
def fsE1 : FS :=
  { fsE with projects := some [{ name := toL "p", files := [(toL "b.jsonl", nodeE)] }] }

/-- Counterexample filesystem for the scroll-window claim: 12 sessions. -/
def fs12 : FS :=
  { projects := some [{ name := toL "p",
                        files := [mkFile "c01.jsonl", mkFile "c02.jsonl", mkFile "c03.jsonl",
                                  mkFile "c04.jsonl", mkFile "c05.jsonl", mkFile "c06.jsonl",
                                  mkFile "c07.jsonl", mkFile "c08.jsonl", mkFile "c09.jsonl",
                                  mkFile "c10.jsonl", mkFile "c11.jsonl", mkFile "c12.jsonl"] }] }

/-- Jump to the last session on a zero-height terminal. -/
def m8a : TuiModel := stepMsg fs12 (initialModel fs12) (Msg.key Key.endKey)

/-- Then shrink the terminal to height 15 without navigating. -/
def m8b : TuiModel := stepMsg fs12 m8a (Msg.winSize 80 15)

def fsEmpty : FS := {}

/-- Page-down on an empty session list. -/
def m10a : TuiModel := stepMsg fsEmpty (initialModel fsEmpty) (Msg.key Key.pgdown)

/-- Then toggle selection. -/
def m10b : TuiModel := stepMsg fsEmpty m10a (Msg.key Key.space)

/-- Then request deletion. -/
def m10c : TuiModel := stepMsg fsEmpty m10b (Msg.key Key.del)

/-- A concrete controller state for timer witnesses. -/
def mW9 : TuiModel := { copiedMsg := toL "old", deleted := 2, copyTimer := 5, deleteTimer := 3 }

/-- A page-down from the initial state over `fs12`, for witnesses. -/
def m8w : TuiModel := stepMsg fs12 (initialModel fs12) (Msg.key Key.pgdown)

/-- The filesystem after deleting session `x` of `fsW2`. -/
def fsW2after : FS :=
  { projects := some [{ name := toL "p", files := [], dirs := [],
                        manifest := some (some { entries := [entryY] }) }],
    debugFiles := [], todoFiles := [], sessionEnvDirs := [], fileHistoryDirs := [] }

/-! ### Theorems -/

/-- C4: for the concrete session file whose record 1 is a file-history
snapshot and whose record 2 is the user message with version 2.1.30 and
content Hello, `getChatTitle` returns Hello and `getChatVersion`
returns 2.1.30; and for every file, `getChatVersion` decodes only
record 2 and returns its version field, with the empty string on any
parse or read error or when the file has fewer than 2 records. -/
theorem claim_C4 :
    getChatTitle (some scenarioLines) = toL "Hello" ∧
    getChatVersion (some scenarioLines) = toL "2.1.30" ∧
    ∀ c, getChatVersion c = specExtractVersion c := by
  refine ⟨by decide, by decide, ?_⟩
  intro c
  match c with
  | none => rfl
  | some [] => rfl
  | some [a] => rfl
  | some (a :: b :: t) => cases b.msg <;> rfl

/-- C10: the session-list safety claim fails on the code. With an empty
session list, page-down drives the cursor to -1, space puts -1 into the
selection set, the delete key still opens the confirmation, and the
confirmed deletion passes the `idx < len(chats)` guard with -1 and then
indexes the chat slice out of range (the model's `none`, a runtime
panic in Go). -/
theorem claim_C10_bug :
    m10a.cursor = -1 ∧
    m10b.selected = [-1] ∧
    m10c.confirmDelete = true ∧
    update fsEmpty m10c (Msg.key Key.enter) = some (m10c, Cmd.startDelete) ∧
    (deleteSelectedChats m10c.chats m10c.selected fsEmpty 0).isNone = true := by
  decide

/-- C8 counterexample: after jumping to the last of 12 sessions on a
zero-height terminal and then resizing to height 15, pressing the down
key at the last index is a navigation transition in Browsing that
leaves the cursor (11) outside the visible window [2, 9). -/
theorem claim_C8_counterexample :
    m8b.confirmDelete = false ∧
    update fs12 m8b (Msg.key Key.down) = some (m8b, Cmd.noCmd) ∧
    ¬(m8b.scrollOffset ≤ m8b.cursor ∧
      m8b.cursor < m8b.scrollOffset + visibleHeight m8b.height) := by
  decide

/-- Any state produced by `adjustScroll` has its cursor inside the
visible window. -/
theorem adjustScroll_window (m : TuiModel) :
    (adjustScroll m).scrollOffset ≤ (adjustScroll m).cursor ∧
    (adjustScroll m).cursor <
      (adjustScroll m).scrollOffset + visibleHeight (adjustScroll m).height := by
  have hvh : 1 ≤ visibleHeight m.height := by
    unfold visibleHeight; split <;> omega
  unfold adjustScroll
  by_cases h1 : m.cursor < m.scrollOffset
  · rw [if_pos h1]
    refine ⟨le_refl _, ?_⟩
    show m.cursor < m.cursor + visibleHeight m.height
    omega
  · rw [if_neg h1]
    by_cases h2 : m.cursor ≥ m.scrollOffset + visibleHeight m.height
    · rw [if_pos h2]
      constructor
      · show m.cursor - visibleHeight m.height + 1 ≤ m.cursor
        omega
      · show m.cursor < m.cursor - visibleHeight m.height + 1 + visibleHeight m.height
        omega
    · rw [if_neg h2]
      constructor
      · omega
      · omega

/-- Extract the window property from an `Update` result built with
`adjustScroll`. -/
theorem adjustScroll_window_eq {z m' : TuiModel} {c c' : Cmd}
    (h : (some (adjustScroll z, c') : Option (TuiModel × Cmd)) = some (m', c)) :
    m'.scrollOffset ≤ m'.cursor ∧
    m'.cursor < m'.scrollOffset + visibleHeight m'.height := by
  have h1 : adjustScroll z = m' := congrArg Prod.fst (Option.some.inj h)
  exact h1 ▸ adjustScroll_window z

/-- C8, amended: after every navigation transition in Browsing that
recomputes the scroll window — page up or down, jump to first or last,
half-page scroll, and any cursor move that actually moves the cursor —
the cursor index lies inside [scrollOffset, scrollOffset + pageHeight),
where pageHeight is the terminal height minus the fixed chrome height,
floored for tiny terminals. An up or down key pressed at the list edge
leaves the state, including a window made stale by a resize, untouched. -/
theorem claim_C8_amended :
    ∀ fs m k m' c, m.confirmDelete = false → navAdjusts m k = true →
      update fs m (Msg.key k) = some (m', c) →
      m'.scrollOffset ≤ m'.cursor ∧
      m'.cursor < m'.scrollOffset + visibleHeight m'.height := by
  intro fs m k m' c hcd hnav hupd
  simp only [update, hcd, Bool.false_eq_true, if_false] at hupd
  cases k with
  | up =>
    simp only [navAdjusts, decide_eq_true_eq] at hnav
    simp only [updateBrowse] at hupd
    rw [if_pos hnav] at hupd
    exact adjustScroll_window_eq hupd
  | down =>
    simp only [navAdjusts, decide_eq_true_eq] at hnav
    simp only [updateBrowse] at hupd
    rw [if_pos hnav] at hupd
    exact adjustScroll_window_eq hupd
  | pgdown =>
    simp only [updateBrowse] at hupd
    exact adjustScroll_window_eq hupd
  | pgup =>
    simp only [updateBrowse] at hupd
    exact adjustScroll_window_eq hupd
  | home =>
    simp only [updateBrowse] at hupd
    exact adjustScroll_window_eq hupd
  | endKey =>
    simp only [updateBrowse] at hupd
    exact adjustScroll_window_eq hupd
  | ctrlD =>
    simp only [updateBrowse] at hupd
    exact adjustScroll_window_eq hupd
  | ctrlU =>
    simp only [updateBrowse] at hupd
    exact adjustScroll_window_eq hupd
  | space => simp [navAdjusts] at hnav
  | selectAll => simp [navAdjusts] at hnav
  | del => simp [navAdjusts] at hnav
  | refresh => simp [navAdjusts] at hnav
  | copy ok => simp [navAdjusts] at hnav
  | enter => simp [navAdjusts] at hnav
  | esc => simp [navAdjusts] at hnav
  | keyN => simp [navAdjusts] at hnav
  | quit => simp [navAdjusts] at hnav
  | other => simp [navAdjusts] at hnav

/-- Witness for the amended C8 theorem at a concrete page-down. -/
theorem claim_C8_amended_witness :
    m8w.scrollOffset ≤ m8w.cursor ∧
    m8w.cursor < m8w.scrollOffset + visibleHeight m8w.height :=
  claim_C8_amended fs12 (initialModel fs12) Key.pgdown m8w Cmd.noCmd (by decide) (by decide)
    (by decide)

/-- `adjustScroll` only moves the scroll offset. -/
theorem adjustScroll_copyTimer (m : TuiModel) :
    (adjustScroll m).copyTimer = m.copyTimer := by
  unfold adjustScroll
  split
  · rfl
  · split
    · rfl
    · rfl

/-- `adjustScroll` only moves the scroll offset. -/
theorem adjustScroll_deleteTimer (m : TuiModel) :
    (adjustScroll m).deleteTimer = m.deleteTimer := by
  unfold adjustScroll
  split
  · rfl
  · split
    · rfl
    · rfl

/-- C9: a transient-message expiry event whose captured generation id
differs from the current counter is a complete no-op; a new message
(successful clipboard copy, deletion completion) increments its counter
and schedules the expiry with the new id; and no event ever decreases a
counter — so a newer message is never cleared by a stale expiry event
arriving out of order. -/
theorem claim_C9 :
    (∀ fs m id, id ≠ m.copyTimer → update fs m (Msg.clearCopied id) = some (m, Cmd.noCmd)) ∧
    (∀ fs m id, id ≠ m.deleteTimer → update fs m (Msg.clearDelete id) = some (m, Cmd.noCmd)) ∧
    (∀ fs m m' c, m.confirmDelete = false → 0 ≤ m.cursor →
       m.cursor < (m.chats.length : Int) →
       update fs m (Msg.key (Key.copy true)) = some (m', c) →
       m'.copyTimer = m.copyTimer + 1 ∧ c = Cmd.tickCopied (m.copyTimer + 1)) ∧
    (∀ fs m count m' c, update fs m (Msg.deleteComplete count) = some (m', c) →
       m'.deleteTimer = m.deleteTimer + 1 ∧
       (c = Cmd.tickDelete (m.deleteTimer + 1) ∨ c = Cmd.quitCmd)) ∧
    (∀ fs m msg m' c, update fs m msg = some (m', c) →
       m.copyTimer ≤ m'.copyTimer ∧ m.deleteTimer ≤ m'.deleteTimer) := by
  refine ⟨?_, ?_, ?_, ?_, ?_⟩
  · intro fs m id h
    simp only [update]
    rw [if_neg h]
  · intro fs m id h
    simp only [update]
    rw [if_neg h]
  · intro fs m m' c hcd h0 hlen hupd
    simp only [update, hcd, Bool.false_eq_true, if_false, updateBrowse] at hupd
    rw [if_pos hlen, if_neg (by omega : ¬m.cursor < 0)] at hupd
    have hb : m.cursor.toNat < m.chats.length := by omega
    rw [List.getElem?_eq_getElem hb] at hupd
    simp only [if_true] at hupd
    obtain ⟨h1, h2⟩ := Prod.mk.inj (Option.some.inj hupd)
    subst h1
    exact ⟨rfl, h2.symm⟩
  · intro fs m count m' c hupd
    simp only [update, updateDeleteComplete] at hupd
    split at hupd <;>
      obtain ⟨h1, h2⟩ := Prod.mk.inj (Option.some.inj hupd) <;> subst h1
    · exact ⟨rfl, Or.inr h2.symm⟩
    · exact ⟨rfl, Or.inl h2.symm⟩
  · intro fs m msg m' c hupd
    cases msg with
    | winSize w h =>
      simp only [update] at hupd
      obtain ⟨h1, h2⟩ := Prod.mk.inj (Option.some.inj hupd)
      subst h1
      exact ⟨le_refl _, le_refl _⟩
    | key k =>
      by_cases hc : m.confirmDelete
      · simp only [update, hc, if_true] at hupd
        obtain ⟨h1, h2⟩ := Prod.mk.inj (Option.some.inj hupd)
        subst h1
        cases k <;> exact ⟨le_refl _, le_refl _⟩
      · simp only [update, hc, Bool.false_eq_true, if_false] at hupd
        cases k <;> simp only [updateBrowse] at hupd <;>
          repeat' split at hupd
        all_goals
          first
          | exact Option.noConfusion hupd
          | · obtain ⟨h1, h2⟩ := Prod.mk.inj (Option.some.inj hupd)
              subst h1
              constructor <;> simp [adjustScroll_copyTimer, adjustScroll_deleteTimer]
    | deleteComplete count =>
      simp only [update, updateDeleteComplete] at hupd
      split at hupd <;>
        obtain ⟨h1, h2⟩ := Prod.mk.inj (Option.some.inj hupd) <;> subst h1 <;>
        constructor <;> simp
    | errMsg e =>
      simp only [update] at hupd
      obtain ⟨h1, h2⟩ := Prod.mk.inj (Option.some.inj hupd)
      subst h1
      exact ⟨le_refl _, le_refl _⟩
    | clearCopied id =>
      simp only [update] at hupd
      split at hupd <;>
        obtain ⟨h1, h2⟩ := Prod.mk.inj (Option.some.inj hupd) <;> subst h1 <;>
        exact ⟨le_refl _, le_refl _⟩
    | clearDelete id =>
      simp only [update] at hupd
      split at hupd <;>
        obtain ⟨h1, h2⟩ := Prod.mk.inj (Option.some.inj hupd) <;> subst h1 <;>
        exact ⟨le_refl _, le_refl _⟩

/-- Witness for C9 at a concrete stale expiry id. -/
theorem claim_C9_witness :
    update fsEmpty mW9 (Msg.clearCopied 4) = some (mW9, Cmd.noCmd) :=
  claim_C9.1 fsEmpty mW9 4 (by decide)

/-- The ordering the session list is sorted by: non-increasing
timestamp. -/
def chatGe (a b : Chat) : Prop := strLe b.timestamp a.timestamp = true

/-- `strLe` is total. -/
theorem strLe_total (a b : GoStr) : strLe a b = true ∨ strLe b a = true := by
  induction a generalizing b with
  | nil => left; rfl
  | cons x xs ih =>
    cases b with
    | nil => right; rfl
    | cons y ys =>
      by_cases h1 : x.toNat < y.toNat
      · left; simp only [strLe]; rw [if_pos h1]
      · by_cases h2 : y.toNat < x.toNat
        · right; simp only [strLe]; rw [if_pos h2]
        · simp only [strLe]
          rw [if_neg h1, if_neg h2, if_neg h2, if_neg h1]
          exact ih ys

/-- `strLe` is transitive. -/
theorem strLe_trans {a b c : GoStr} (h1 : strLe a b = true) (h2 : strLe b c = true) :
    strLe a c = true := by
  induction a generalizing b c with
  | nil => rfl
  | cons x xs ih =>
    cases b with
    | nil => exact absurd h1 (by simp [strLe])
    | cons y ys =>
      cases c with
      | nil => exact absurd h2 (by simp [strLe])
      | cons z zs =>
        simp only [strLe] at h1 h2 ⊢
        split_ifs at h1 h2 ⊢ <;>
          first
          | rfl
          | exact ih h1 h2
          | (exfalso; omega)

/-- Membership through `insertChat`. -/
theorem mem_insertChat {x c : Chat} {l : List Chat} :
    x ∈ insertChat c l ↔ x = c ∨ x ∈ l := by
  induction l with
  | nil => simp [insertChat]
  | cons d ds ih =>
    rw [insertChat]
    split
    · simp [List.mem_cons]
    · simp only [List.mem_cons, ih]
      tauto

/-- Membership through `sortChats`. -/
theorem mem_sortChats {x : Chat} {l : List Chat} : x ∈ sortChats l ↔ x ∈ l := by
  induction l with
  | nil => simp [sortChats]
  | cons c cs ih =>
    rw [sortChats, mem_insertChat, ih, List.mem_cons]

/-- `insertChat` preserves sortedness. -/
theorem pairwise_insertChat {c : Chat} {l : List Chat} (h : l.Pairwise chatGe) :
    (insertChat c l).Pairwise chatGe := by
  induction l with
  | nil => simp [insertChat, chatGe]
  | cons d ds ih =>
    rw [insertChat]
    rw [List.pairwise_cons] at h
    obtain ⟨hd, hds⟩ := h
    split
    · rename_i hcond
      rw [List.pairwise_cons]
      refine ⟨?_, List.pairwise_cons.mpr ⟨hd, hds⟩⟩
      intro x hx
      rcases List.mem_cons.mp hx with rfl | hx2
      · exact hcond
      · exact strLe_trans (hd x hx2) hcond
    · rename_i hcond
      rw [List.pairwise_cons]
      constructor
      · intro x hx
        rcases mem_insertChat.mp hx with rfl | hx2
        · rcases strLe_total d.timestamp x.timestamp with h3 | h3
          · exact absurd h3 hcond
          · exact h3
        · exact hd x hx2
      · exact ih hds

/-- `sortChats` sorts non-increasing by timestamp. -/
theorem pairwise_sortChats (l : List Chat) : (sortChats l).Pairwise chatGe := by
  induction l with
  | nil => simp [sortChats]
  | cons c cs ih => exact pairwise_insertChat ih

/-- C7: the sequence returned by the scanner is sorted non-increasing by
timestamp string, and scanning the same unchanged filesystem twice
yields the same sequence. -/
theorem claim_C7 (fs : FS) :
    (findAllChats fs).Pairwise chatGe ∧ findAllChats fs = findAllChats fs := by
  refine ⟨?_, rfl⟩
  unfold findAllChats
  cases fs.projects with
  | none => simp
  | some ps => exact pairwise_sortChats _

/-- C6: the scanner never returns a session whose UUID (the base name
with the extension stripped) begins with the reserved `agent-` prefix. -/
theorem claim_C6 (fs : FS) (chat : Chat) (h : chat ∈ findAllChats fs) :
    agentPre.isPrefixOf chat.uuid = false := by
  unfold findAllChats at h
  cases hp : fs.projects with
  | none => rw [hp] at h; exact absurd h (by simp)
  | some ps =>
    rw [hp] at h
    obtain ⟨p, hp2, hmem⟩ := List.mem_flatMap.mp (mem_sortChats.mp h)
    unfold projectChats at hmem
    obtain ⟨f, hf, heq⟩ := List.mem_filterMap.mp hmem
    split at heq
    · split at heq
      · exact Option.noConfusion heq
      · rename_i hpre
        have hc : chatOfFile p.name f.1 f.2 = chat := Option.some.inj heq
        subst hc
        show agentPre.isPrefixOf (trimSuffix f.1 jsonlExt) = false
        exact Bool.eq_false_iff.mpr hpre
    · exact Option.noConfusion heq

/-- Witness for C6 at a concrete scanned session. -/
theorem claim_C6_witness :
    chatW6 ∈ findAllChats fsW6 ∧ agentPre.isPrefixOf chatW6.uuid = false :=
  ⟨by decide, claim_C6 fsW6 chatW6 (by decide)⟩

/-- One balanced pair whose first opening tag sits at `a.length` and
whose first closing tag ends the span is removed exactly; with no other
opening tag left, the loop then stops. -/
theorem stripTagLoop_balanced (op cl a b c : GoStr) (f : Nat)
    (h1 : indexOf (a ++ (op ++ (b ++ (cl ++ c)))) op = some a.length)
    (h2 : indexOf (op ++ (b ++ (cl ++ c))) cl = some (op.length + b.length))
    (h3 : indexOf (a ++ c) op = none) :
    stripTagLoop op cl (f + 2) (a ++ (op ++ (b ++ (cl ++ c)))) = a ++ c := by
  have ht : (a ++ (op ++ (b ++ (cl ++ c)))).take a.length = a := List.take_left a _
  have hd : (a ++ (op ++ (b ++ (cl ++ c)))).drop
      (a.length + (op.length + b.length) + cl.length) = c := by
    have hs : a ++ (op ++ (b ++ (cl ++ c))) = (a ++ (op ++ (b ++ cl))) ++ c := by simp
    rw [hs, List.drop_left']
    simp only [List.length_append]
    omega
  simp only [stripTagLoop, h1, List.drop_left, h2, ht, hd, h3]

/-- An opening tag with no closing tag after it discards everything from
the opening tag to the end. -/
theorem stripTagLoop_unterminated (op cl a b : GoStr) (f : Nat)
    (h1 : indexOf (a ++ (op ++ b)) op = some a.length)
    (h2 : indexOf (op ++ b) cl = none) :
    stripTagLoop op cl (f + 1) (a ++ (op ++ b)) = a := by
  simp only [stripTagLoop, h1, List.drop_left, h2]
  exact List.take_left a _

/-- `stripTag` on a single balanced pair removes exactly its span. -/
theorem stripTag_balanced (op cl a b c : GoStr) (hop : op ≠ [])
    (h1 : indexOf (a ++ (op ++ (b ++ (cl ++ c)))) op = some a.length)
    (h2 : indexOf (op ++ (b ++ (cl ++ c))) cl = some (op.length + b.length))
    (h3 : indexOf (a ++ c) op = none) :
    stripTag op cl (a ++ (op ++ (b ++ (cl ++ c)))) = a ++ c := by
  unfold stripTag
  have hlen : 1 ≤ (a ++ (op ++ (b ++ (cl ++ c)))).length := by
    cases op with
    | nil => exact absurd rfl hop
    | cons x xs => simp; omega
  obtain ⟨g, hg⟩ : ∃ g, (a ++ (op ++ (b ++ (cl ++ c)))).length + 1 = g + 2 :=
    ⟨(a ++ (op ++ (b ++ (cl ++ c)))).length - 1, by omega⟩
  rw [hg]
  exact stripTagLoop_balanced op cl a b c g h1 h2 h3

/-- C5: for every system tag pair, stripping removes exactly the span of
a balanced pair when the enclosed text contains no nested same-tag pair
(stated via the positions of the first opening and closing tags) and the
rest of the content has no further opening tag; an opening tag with no
matching closing tag discards everything from the opening tag to the end
of the content; and title extraction of the same unchanged file is the
same title. -/
theorem claim_C5 :
    (∀ op cl a b c, (op, cl) ∈ systemTagPairs →
       indexOf (a ++ (op ++ (b ++ (cl ++ c)))) op = some a.length →
       indexOf (op ++ (b ++ (cl ++ c))) cl = some (op.length + b.length) →
       indexOf (a ++ c) op = none →
       stripTag op cl (a ++ (op ++ (b ++ (cl ++ c)))) = a ++ c) ∧
    (∀ op cl a b, (op, cl) ∈ systemTagPairs →
       indexOf (a ++ (op ++ b)) op = some a.length →
       indexOf (op ++ b) cl = none →
       stripTag op cl (a ++ (op ++ b)) = a) ∧
    (∀ f, getChatTitle f = getChatTitle f) := by
  have hne : ∀ pr ∈ systemTagPairs, pr.1 ≠ ([] : GoStr) := by decide
  refine ⟨?_, ?_, fun f => rfl⟩
  · intro op cl a b c hmem h1 h2 h3
    exact stripTag_balanced op cl a b c (hne (op, cl) hmem) h1 h2 h3
  · intro op cl a b hmem h1 h2
    unfold stripTag
    exact stripTagLoop_unterminated op cl a b _ h1 h2

/-- Witness for C5 at a concrete tagged string. -/
theorem claim_C5_witness :
    stripTag (toL "<system-reminder>") (toL "</system-reminder>")
      (toL "Hi " ++ (toL "<system-reminder>" ++ (toL "note" ++
        (toL "</system-reminder>" ++ toL " there")))) = toL "Hi " ++ toL " there" :=
  claim_C5.1 (toL "<system-reminder>") (toL "</system-reminder>") (toL "Hi ") (toL "note")
    (toL " there") (by decide) (by decide) (by decide) (by decide)

/-- A strictly shorter filtered list has a dropped element. -/
theorem exists_false_of_filter_lt {α : Type} {l : List α} {p : α → Bool}
    (h : (l.filter p).length < l.length) : ∃ x ∈ l, p x = false := by
  induction l with
  | nil => simp at h
  | cons a t ih =>
    cases ha : p a with
    | false => exact ⟨a, List.mem_cons_self a t, ha⟩
    | true =>
      rw [List.filter_cons_of_pos ha] at h
      obtain ⟨x, hx, hpx⟩ := ih (Nat.lt_of_succ_lt_succ h)
      exact ⟨x, List.mem_cons_of_mem a hx, hpx⟩

/-- Dropping some element makes the filtered list strictly shorter. -/
theorem filter_lt_of_exists_false {α : Type} {l : List α} {p : α → Bool}
    (h : ∃ x ∈ l, p x = false) : (l.filter p).length < l.length := by
  induction l with
  | nil => simp at h
  | cons a t ih =>
    obtain ⟨x, hx, hpx⟩ := h
    rcases List.mem_cons.mp hx with rfl | hxt
    · rw [List.filter_cons_of_neg (by simp [hpx])]
      exact Nat.lt_succ_of_le (List.length_filter_le p t)
    · cases ha : p a with
      | true =>
        rw [List.filter_cons_of_pos ha]
        exact Nat.succ_lt_succ (ih ⟨x, hxt, hpx⟩)
      | false =>
        rw [List.filter_cons_of_neg (by simp [ha])]
        exact Nat.lt_succ_of_lt (ih ⟨x, hxt, hpx⟩)

/-- The removal condition of `updateSessionsIndex` is `manifestMatches`. -/
theorem filter_lt_iff_manifestMatches (uuid : GoStr) (man : SessionsIndex) :
    (man.entries.filter (fun e => decide (e.sessionId ≠ uuid))).length <
        man.entries.length ↔
      man.entries.any (fun e => e.sessionId == uuid) = true := by
  constructor
  · intro h
    obtain ⟨x, hx, hpx⟩ := exists_false_of_filter_lt h
    refine List.any_eq_true.mpr ⟨x, hx, ?_⟩
    simp only [decide_eq_false_iff_not, not_not] at hpx
    simp [hpx]
  · intro h
    obtain ⟨x, hx, hpx⟩ := List.any_eq_true.mp h
    refine filter_lt_of_exists_false ⟨x, hx, ?_⟩
    simp only [beq_iff_eq] at hpx
    simp [hpx]

/-- The loop of `updateSessionsIndex`, when no write fails: no error, the
rewritten projects are exactly the matching ones, and each project is
untouched unless an entry was removed. -/
theorem updIdx_noFail (uuid : GoStr) (wf : GoStr → Bool) (hwf : ∀ s, wf s = false)
    (ps : List Project) :
    (updIdx uuid wf ps).2.2 = none ∧
    (updIdx uuid wf ps).2.1 = (ps.filter (manifestMatches uuid)).map Project.name ∧
    List.Forall₂ (fun p p' =>
      (manifestMatches uuid p = false → p' = p) ∧
      (∀ man, p.manifest = some (some man) → manifestMatches uuid p = true →
        p' = { p with manifest := some (some { man with
                entries := man.entries.filter (fun e => decide (e.sessionId ≠ uuid)) }) }))
      ps (updIdx uuid wf ps).1 := by
  induction ps with
  | nil => exact ⟨rfl, rfl, List.Forall₂.nil⟩
  | cons p ps ih =>
    obtain ⟨ih1, ih2, ih3⟩ := ih
    rcases hman : p.manifest with - | om
    · have hmm : manifestMatches uuid p = false := by simp [manifestMatches, hman]
      simp only [updIdx, hman]
      refine ⟨ih1, ?_, List.Forall₂.cons ⟨fun _ => rfl, ?_⟩ ih3⟩
      · rw [List.filter_cons_of_neg (by simp [hmm]), ih2]
      · intro man hm
        exact absurd (hman ▸ hm) (by simp)
    · rcases om with - | man
      · have hmm : manifestMatches uuid p = false := by simp [manifestMatches, hman]
        simp only [updIdx, hman]
        refine ⟨ih1, ?_, List.Forall₂.cons ⟨fun _ => rfl, ?_⟩ ih3⟩
        · rw [List.filter_cons_of_neg (by simp [hmm]), ih2]
        · intro man2 hm
          exact absurd (hman ▸ hm) (by simp)
      · simp only [updIdx, hman]
        by_cases hlt : (man.entries.filter (fun e => decide (e.sessionId ≠ uuid))).length <
            man.entries.length
        · have hmm : manifestMatches uuid p = true := by
            simp only [manifestMatches, hman]
            exact (filter_lt_iff_manifestMatches uuid man).mp hlt
          rw [if_pos hlt, hwf p.name]
          simp only [Bool.false_eq_true, if_false]
          refine ⟨ih1, ?_, List.Forall₂.cons ⟨?_, ?_⟩ ih3⟩
          · rw [List.filter_cons_of_pos hmm, List.map_cons, ih2]
          · intro hmf
            rw [hmm] at hmf
            exact Bool.noConfusion hmf
          · intro man2 hm2 _
            have : man2 = man := by
              have := hman ▸ hm2
              exact (Option.some.inj (Option.some.inj this)).symm
            subst this
            rfl
        · have hmm : manifestMatches uuid p = false := by
            simp only [manifestMatches, hman]
            cases hany : man.entries.any (fun e => e.sessionId == uuid) with
            | false => rfl
            | true => exact absurd ((filter_lt_iff_manifestMatches uuid man).mpr hany) hlt
          rw [if_neg hlt]
          refine ⟨ih1, ?_, List.Forall₂.cons ⟨fun _ => rfl, ?_⟩ ih3⟩
          · rw [List.filter_cons_of_neg (by simp [hmm]), ih2]
          · intro man2 hm2 hmt
            rw [hmm] at hmt
            exact Bool.noConfusion hmt

/-- C3: when the projects directory is readable and no write fails,
`updateSessionsIndex` rewrites a project's manifest if and only if at
least one entry with the given session id was removed from it (the
rewrite trace is exactly the matching projects and the rewritten
manifest is the filtered one); a manifest with no matching entry, and an
absent, unreadable or unparseable manifest, leave the project entirely
unchanged and no error reaches the caller. -/
theorem claim_C3 (fs : FS) (uuid : GoStr) (ps : List Project)
    (hps : fs.projects = some ps) (hwf : ∀ s, fs.writeFails s = false) :
    updateSessionsIndex fs uuid =
      ({ fs with projects := some (updIdx uuid fs.writeFails ps).1 },
       (ps.filter (manifestMatches uuid)).map Project.name, none) ∧
    List.Forall₂ (fun p p' =>
      (manifestMatches uuid p = false → p' = p) ∧
      (∀ man, p.manifest = some (some man) → manifestMatches uuid p = true →
        p' = { p with manifest := some (some { man with
                entries := man.entries.filter (fun e => decide (e.sessionId ≠ uuid)) }) }))
      ps (updIdx uuid fs.writeFails ps).1 := by
  obtain ⟨h1, h2, h3⟩ := updIdx_noFail uuid fs.writeFails hwf ps
  refine ⟨?_, h3⟩
  simp only [updateSessionsIndex, hps]
  rw [h1, h2]

/-- Witness for C3 at a filesystem with a matching, a corrupt, and a
non-matching manifest. -/
theorem claim_C3_witness :
    updateSessionsIndex fsW3 (toL "x") =
      ({ fsW3 with projects := some (updIdx (toL "x") fsW3.writeFails (fsProjects fsW3)).1 },
       ((fsProjects fsW3).filter (manifestMatches (toL "x"))).map Project.name, none) :=
  (claim_C3 fsW3 (toL "x") (fsProjects fsW3) rfl (fun _ => rfl)).1

/-- The batch loop stops at the first error: whatever follows the
failing session is never attempted and does not change the result. -/
theorem deleteSelectedChats_abort (chats : List Chat) (b2 : List Int) :
    ∀ b1 fs count fs' e,
      deleteSelectedChats chats b1 fs count = some (fs', DelMsg.err e) →
      deleteSelectedChats chats (b1 ++ b2) fs count = some (fs', DelMsg.err e) := by
  intro b1
  induction b1 with
  | nil =>
    intro fs count fs' e h
    rw [deleteSelectedChats] at h
    simp at h
  | cons idx rest ih =>
    intro fs count fs' e h
    rw [show (idx :: rest) ++ b2 = idx :: (rest ++ b2) from rfl]
    rw [deleteSelectedChats] at h ⊢
    by_cases h1 : idx < (chats.length : Int)
    · rw [dif_pos h1] at h ⊢
      by_cases h2 : idx < 0
      · rw [dif_pos h2] at h
        exact Option.noConfusion h
      · rw [dif_neg h2] at h ⊢
        split at h
        · exact h
        · rename_i fs1 heq
          exact ih fs1 (count + 1) fs' e h
    · rw [dif_neg h1] at h ⊢
      exact ih fs count fs' e h

/-- On success, the reported count is the number of selected indices
inside the chat list. -/
theorem deleteSelectedChats_count (chats : List Chat) :
    ∀ batch fs count fs' n,
      deleteSelectedChats chats batch fs count = some (fs', DelMsg.complete n) →
      n = count + validCount chats batch := by
  intro batch
  induction batch with
  | nil =>
    intro fs count fs' n h
    rw [deleteSelectedChats] at h
    have h2 := Prod.mk.inj (Option.some.inj h)
    have h3 := DelMsg.complete.inj h2.2
    simp [validCount, h3]
  | cons idx rest ih =>
    intro fs count fs' n h
    rw [deleteSelectedChats] at h
    by_cases h1 : idx < (chats.length : Int)
    · rw [dif_pos h1] at h
      by_cases h2 : idx < 0
      · rw [dif_pos h2] at h
        exact Option.noConfusion h
      · rw [dif_neg h2] at h
        split at h
        · rename_i fs1 e1 heq
          have := Prod.mk.inj (Option.some.inj h)
          exact absurd this.2 (by simp)
        · rename_i fs1 heq
          have := ih fs1 (count + 1) fs' n h
          rw [this]
          simp only [validCount, List.filter_cons, decide_eq_true_eq]
          rw [if_pos (by simpa using h1)]
          simp [List.length_cons]
          omega
    · rw [dif_neg h1] at h
      have := ih fs count fs' n h
      rw [this]
      simp only [validCount, List.filter_cons, decide_eq_true_eq]
      rw [if_neg (by simpa using h1)]

/-- C1, amended: the batch is processed one session at a time (resolve,
remove every path, synchronize indices); the first filesystem removal
error or index-update error aborts the entire batch — no later session
is ever attempted, the batch result being independent of everything
after the failing session — and the error is returned alone: the
message carries no count of the sessions completed before the failure;
on success the number of sessions processed (the selected indices inside
the list) is returned and no error. -/
theorem claim_C1_amended :
    (∀ chats b1 b2 fs count fs' e,
       deleteSelectedChats chats b1 fs count = some (fs', DelMsg.err e) →
       deleteSelectedChats chats (b1 ++ b2) fs count = some (fs', DelMsg.err e)) ∧
    (∀ chats batch fs fs' n,
       deleteSelectedChats chats batch fs 0 = some (fs', DelMsg.complete n) →
       n = validCount chats batch) ∧
    (∀ e, delMsgCount (DelMsg.err e) = none) := by
  refine ⟨?_, ?_, fun e => rfl⟩
  · intro chats b1 b2 fs count fs' e h
    exact deleteSelectedChats_abort chats b2 b1 fs count fs' e h
  · intro chats batch fs fs' n h
    have := deleteSelectedChats_count chats batch fs 0 fs' n h
    simpa using this

/-- Counterexample for C1 as stated: in a two-session batch whose second
removal fails, the first session is fully completed (its related files
resolve to nothing afterwards), yet the returned message is the bare
error, carrying no count, and the controller displays no deletion count
for it. -/
theorem claim_C1_counterexample :
    deleteSelectedChats chatsE [0, 1] fsE 0 =
      some (fsE1, DelMsg.err (DelErr.removeFailed (RPath.sessionFile (toL "p") (toL "b")))) ∧
    findRelatedFiles fsE1 (toL "a") = [] ∧
    delMsgCount (DelMsg.err (DelErr.removeFailed (RPath.sessionFile (toL "p") (toL "b")))) =
      none ∧
    (stepMsg fsE1 (initialModel fsE)
      (Msg.errMsg (DelErr.removeFailed (RPath.sessionFile (toL "p") (toL "b"))))).deleted
      = 0 := by
  refine ⟨rfl, by decide, rfl, by decide⟩

/-- Witness for the amended C1 theorem: the abort clause at the concrete
failing batch, and the count clause at a concrete successful batch. -/
theorem claim_C1_witness :
    deleteSelectedChats chatsE ([0, 1] ++ [7]) fsE 0 =
      some (fsE1, DelMsg.err (DelErr.removeFailed (RPath.sessionFile (toL "p") (toL "b")))) ∧
    1 = validCount [chatW2] [0] :=
  ⟨claim_C1_amended.1 chatsE [0, 1] [7] fsE 0 fsE1
      (DelErr.removeFailed (RPath.sessionFile (toL "p") (toL "b"))) rfl,
   claim_C1_amended.2.1 [chatW2] [0] fsW2 _ 1 rfl⟩

/-- `projUpd` keeps the project name. -/
theorem projUpd_name (r : RPath) (p : Project) : (projUpd r p).name = p.name := by
  cases r <;> simp only [projUpd] <;> first | rfl | (split <;> rfl)

/-- `projUpd` keeps the manifest. -/
theorem projUpd_manifest (r : RPath) (p : Project) :
    (projUpd r p).manifest = p.manifest := by
  cases r <;> simp only [projUpd] <;> first | rfl | (split <;> rfl)

/-- `projUpd` only removes files. -/
theorem projUpd_files_sub {r : RPath} {p : Project} :
    ∀ f ∈ (projUpd r p).files, f ∈ p.files := by
  intro f hf
  cases r with
  | sessionFile pn u =>
    simp only [projUpd] at hf
    split at hf
    · exact (List.mem_filter.mp hf).1
    · exact hf
  | chatDir pn u =>
    simp only [projUpd] at hf
    split at hf <;> exact hf
  | toolResults pn u =>
    simp only [projUpd] at hf
    split at hf <;> exact hf
  | plan s => exact hf
  | debug u => exact hf
  | todo t => exact hf
  | sessionEnv u => exact hf
  | fileHistory u => exact hf
  | agentMem a => exact hf

/-- The projects after a removal are the pointwise-updated originals. -/
theorem removeRPath_fsProjects (fs : FS) (r : RPath) :
    fsProjects (removeRPath fs r) = (fsProjects fs).map (projUpd r) := by
  unfold fsProjects removeRPath
  cases fs.projects <;> rfl

theorem removeRPath_projects {fs : FS} {r : RPath} :
    ∀ p' ∈ fsProjects (removeRPath fs r), ∃ p ∈ fsProjects fs, p' = projUpd r p := by
  intro p' hp'
  rw [removeRPath_fsProjects] at hp'
  obtain ⟨p, hp, rfl⟩ := List.mem_map.mp hp'
  exact ⟨p, hp, rfl⟩

/-- Removals only shrink the debug directory. -/
theorem removeRPath_debug_sub {fs : FS} {r : RPath} {x : GoStr}
    (h : x ∈ (removeRPath fs r).debugFiles) : x ∈ fs.debugFiles := by
  cases r <;> simp only [removeRPath] at h <;>
    first | exact h | exact (List.mem_filter.mp h).1

/-- Removals only shrink the todos directory. -/
theorem removeRPath_todo_sub {fs : FS} {r : RPath} {x : GoStr}
    (h : x ∈ (removeRPath fs r).todoFiles) : x ∈ fs.todoFiles := by
  cases r <;> simp only [removeRPath] at h <;>
    first | exact h | exact (List.mem_filter.mp h).1

/-- Removals only shrink the session-env directory. -/
theorem removeRPath_env_sub {fs : FS} {r : RPath} {x : GoStr}
    (h : x ∈ (removeRPath fs r).sessionEnvDirs) : x ∈ fs.sessionEnvDirs := by
  cases r <;> simp only [removeRPath] at h <;>
    first | exact h | exact (List.mem_filter.mp h).1

/-- Removals only shrink the file-history directory. -/
theorem removeRPath_hist_sub {fs : FS} {r : RPath} {x : GoStr}
    (h : x ∈ (removeRPath fs r).fileHistoryDirs) : x ∈ fs.fileHistoryDirs := by
  cases r <;> simp only [removeRPath] at h <;>
    first | exact h | exact (List.mem_filter.mp h).1

/-- Removing the debug log removes it. -/
theorem removeRPath_debug_gone {fs : FS} {u : GoStr} :
    (u ++ txtExt) ∉ (removeRPath fs (RPath.debug u)).debugFiles := by
  intro h
  simp only [removeRPath] at h
  have := (List.mem_filter.mp h).2
  simp at this

/-- Removing a todo file removes it. -/
theorem removeRPath_todo_gone {fs : FS} {t : GoStr} :
    t ∉ (removeRPath fs (RPath.todo t)).todoFiles := by
  intro h
  simp only [removeRPath] at h
  have := (List.mem_filter.mp h).2
  simp at this

/-- Removing the session-env directory removes it. -/
theorem removeRPath_env_gone {fs : FS} {u : GoStr} :
    u ∉ (removeRPath fs (RPath.sessionEnv u)).sessionEnvDirs := by
  intro h
  simp only [removeRPath] at h
  have := (List.mem_filter.mp h).2
  simp at this

/-- Removing the file-history directory removes it. -/
theorem removeRPath_hist_gone {fs : FS} {u : GoStr} :
    u ∉ (removeRPath fs (RPath.fileHistory u)).fileHistoryDirs := by
  intro h
  simp only [removeRPath] at h
  have := (List.mem_filter.mp h).2
  simp at this

/-- Removing a session's primary file removes it from every project of
that name. -/
theorem removeRPath_session_gone {fs : FS} {pn u : GoStr} :
    ∀ p' ∈ fsProjects (removeRPath fs (RPath.sessionFile pn u)), p'.name = pn →
      ∀ f ∈ p'.files, f.1 ≠ u ++ jsonlExt := by
  intro p' hp' hname f hf
  obtain ⟨p, hp, rfl⟩ := removeRPath_projects p' hp'
  by_cases hn : p.name = pn
  · simp only [projUpd, if_pos hn] at hf
    have := (List.mem_filter.mp hf).2
    simpa using this
  · simp only [projUpd, if_neg hn] at hname
    exact absurd hname hn

/-- Each project surviving a removal loop descends from an original one:
same name, a subset of its files, the same manifest. -/
theorem removeFiles_projects {fs : FS} {l : List RPath} :
    ∀ p' ∈ fsProjects (removeFiles fs l).1, ∃ p ∈ fsProjects fs,
      p'.name = p.name ∧ (∀ f ∈ p'.files, f ∈ p.files) ∧ p'.manifest = p.manifest := by
  induction l generalizing fs with
  | nil =>
    intro p' hp'
    exact ⟨p', hp', rfl, fun f hf => hf, rfl⟩
  | cons r rest ih =>
    intro p' hp'
    rw [removeFiles] at hp'
    split at hp'
    · exact ⟨p', hp', rfl, fun f hf => hf, rfl⟩
    · obtain ⟨pm, hpm, hname, hfiles, hman⟩ := ih p' hp'
      obtain ⟨p, hp, rfl⟩ := removeRPath_projects pm hpm
      refine ⟨p, hp, ?_, ?_, ?_⟩
      · rw [hname, projUpd_name]
      · intro f hf
        exact projUpd_files_sub f (hfiles f hf)
      · rw [hman, projUpd_manifest]

/-- The removal loop only shrinks the debug directory. -/
theorem removeFiles_debug_sub {fs : FS} {l : List RPath} {x : GoStr}
    (h : x ∈ (removeFiles fs l).1.debugFiles) : x ∈ fs.debugFiles := by
  induction l generalizing fs with
  | nil => exact h
  | cons r rest ih =>
    rw [removeFiles] at h
    split at h
    · exact h
    · exact removeRPath_debug_sub (ih h)

/-- The removal loop only shrinks the todos directory. -/
theorem removeFiles_todo_sub {fs : FS} {l : List RPath} {x : GoStr}
    (h : x ∈ (removeFiles fs l).1.todoFiles) : x ∈ fs.todoFiles := by
  induction l generalizing fs with
  | nil => exact h
  | cons r rest ih =>
    rw [removeFiles] at h
    split at h
    · exact h
    · exact removeRPath_todo_sub (ih h)

/-- The removal loop only shrinks the session-env directory. -/
theorem removeFiles_env_sub {fs : FS} {l : List RPath} {x : GoStr}
    (h : x ∈ (removeFiles fs l).1.sessionEnvDirs) : x ∈ fs.sessionEnvDirs := by
  induction l generalizing fs with
  | nil => exact h
  | cons r rest ih =>
    rw [removeFiles] at h
    split at h
    · exact h
    · exact removeRPath_env_sub (ih h)

/-- The removal loop only shrinks the file-history directory. -/
theorem removeFiles_hist_sub {fs : FS} {l : List RPath} {x : GoStr}
    (h : x ∈ (removeFiles fs l).1.fileHistoryDirs) : x ∈ fs.fileHistoryDirs := by
  induction l generalizing fs with
  | nil => exact h
  | cons r rest ih =>
    rw [removeFiles] at h
    split at h
    · exact h
    · exact removeRPath_hist_sub (ih h)

/-- A removal loop that lists the debug log and completes leaves no
debug log. -/
theorem removeFiles_hits_debug {fs : FS} {l : List RPath} {u : GoStr}
    (hmem : RPath.debug u ∈ l) (hok : (removeFiles fs l).2 = none) :
    (u ++ txtExt) ∉ (removeFiles fs l).1.debugFiles := by
  induction l generalizing fs with
  | nil => simp at hmem
  | cons r rest ih =>
    rw [removeFiles] at hok ⊢
    split at hok
    · exact absurd hok (by simp)
    · rw [if_neg (by rename_i hrf; exact hrf)]
      rcases List.mem_cons.mp hmem with rfl | hmem2
      · intro hcontra
        exact removeRPath_debug_gone (removeFiles_debug_sub hcontra)
      · exact ih hmem2 hok

/-- A removal loop that lists a todo file and completes removes it. -/
theorem removeFiles_hits_todo {fs : FS} {l : List RPath} {t : GoStr}
    (hmem : RPath.todo t ∈ l) (hok : (removeFiles fs l).2 = none) :
    t ∉ (removeFiles fs l).1.todoFiles := by
  induction l generalizing fs with
  | nil => simp at hmem
  | cons r rest ih =>
    rw [removeFiles] at hok ⊢
    split at hok
    · exact absurd hok (by simp)
    · rw [if_neg (by rename_i hrf; exact hrf)]
      rcases List.mem_cons.mp hmem with rfl | hmem2
      · intro hcontra
        exact removeRPath_todo_gone (removeFiles_todo_sub hcontra)
      · exact ih hmem2 hok

/-- A removal loop that lists the session-env directory and completes
removes it. -/
theorem removeFiles_hits_env {fs : FS} {l : List RPath} {u : GoStr}
    (hmem : RPath.sessionEnv u ∈ l) (hok : (removeFiles fs l).2 = none) :
    u ∉ (removeFiles fs l).1.sessionEnvDirs := by
  induction l generalizing fs with
  | nil => simp at hmem
  | cons r rest ih =>
    rw [removeFiles] at hok ⊢
    split at hok
    · exact absurd hok (by simp)
    · rw [if_neg (by rename_i hrf; exact hrf)]
      rcases List.mem_cons.mp hmem with rfl | hmem2
      · intro hcontra
        exact removeRPath_env_gone (removeFiles_env_sub hcontra)
      · exact ih hmem2 hok

/-- A removal loop that lists the file-history directory and completes
removes it. -/
theorem removeFiles_hits_hist {fs : FS} {l : List RPath} {u : GoStr}
    (hmem : RPath.fileHistory u ∈ l) (hok : (removeFiles fs l).2 = none) :
    u ∉ (removeFiles fs l).1.fileHistoryDirs := by
  induction l generalizing fs with
  | nil => simp at hmem
  | cons r rest ih =>
    rw [removeFiles] at hok ⊢
    split at hok
    · exact absurd hok (by simp)
    · rw [if_neg (by rename_i hrf; exact hrf)]
      rcases List.mem_cons.mp hmem with rfl | hmem2
      · intro hcontra
        exact removeRPath_hist_gone (removeFiles_hist_sub hcontra)
      · exact ih hmem2 hok

/-- A removal loop that lists a session's primary file in some project
and completes leaves no such file in any project of that name. -/
theorem removeFiles_hits_session {fs : FS} {l : List RPath} {pn u : GoStr}
    (hmem : RPath.sessionFile pn u ∈ l) (hok : (removeFiles fs l).2 = none) :
    ∀ p' ∈ fsProjects (removeFiles fs l).1, p'.name = pn →
      ∀ f ∈ p'.files, f.1 ≠ u ++ jsonlExt := by
  induction l generalizing fs with
  | nil => simp at hmem
  | cons r rest ih =>
    rw [removeFiles] at hok ⊢
    split at hok
    · exact absurd hok (by simp)
    · rw [if_neg (by rename_i hrf; exact hrf)]
      rcases List.mem_cons.mp hmem with rfl | hmem2
      · intro p' hp' hname f hf
        obtain ⟨pm, hpm, hnm, hfl, -⟩ := removeFiles_projects p' hp'
        exact removeRPath_session_gone pm hpm (hname ▸ hnm ▸ rfl) f (hfl f hf)
      · exact ih hmem2 hok

/-- A project with no file of the given name resolves it to nothing. -/
theorem projFile_none_of_noFile {p : Project} {nm : GoStr}
    (h : ∀ f ∈ p.files, f.1 ≠ nm) : projFile p nm = none := by
  unfold projFile
  have hfind : p.files.find? (fun f => f.1 == nm) = none :=
    List.find?_eq_none.mpr (by intro x hx; simpa using h x hx)
  rw [hfind]
  rfl

/-- A project owning a file of the given name resolves it. -/
theorem projFile_isSome_of_mem {p : Project} {nm : GoStr}
    (h : ∃ f ∈ p.files, f.1 = nm) : ∃ node, projFile p nm = some node := by
  cases hpf : projFile p nm with
  | some node => exact ⟨node, rfl⟩
  | none =>
    exfalso
    unfold projFile at hpf
    rw [Option.map_eq_none'] at hpf
    rw [List.find?_eq_none] at hpf
    obtain ⟨f, hf, hfn⟩ := h
    exact hpf f hf (by simp [hfn])

/-- The resolver lists the primary file of every owning project. -/
theorem mem_resolve_session {fs : FS} {uuid : GoStr} {p : Project} {node : FileNode}
    (hp : p ∈ fsProjects fs) (hpf : projFile p (uuid ++ jsonlExt) = some node) :
    RPath.sessionFile p.name uuid ∈ findRelatedFiles fs uuid := by
  have hpm : (p, node) ∈ primaryMatches fs uuid :=
    List.mem_filterMap.mpr ⟨p, hp, by rw [hpf]; rfl⟩
  have hmain : RPath.sessionFile p.name uuid ∈ resolveMain fs uuid := by
    unfold resolveMain
    exact List.mem_flatMap.mpr
      ⟨(p, node), hpm,
       List.mem_append.mpr (Or.inl (List.mem_append.mpr
         (Or.inl (List.mem_singleton.mpr rfl))))⟩
  unfold findRelatedFiles
  simp only [List.mem_append]
  tauto

/-- The resolver lists the debug log when it exists. -/
theorem mem_resolve_debug {fs : FS} {uuid : GoStr}
    (h : (uuid ++ txtExt) ∈ fs.debugFiles) :
    RPath.debug uuid ∈ findRelatedFiles fs uuid := by
  have hpart : RPath.debug uuid ∈ resolveDebug fs uuid := by
    unfold resolveDebug
    rw [if_pos h]
    exact List.mem_singleton.mpr rfl
  unfold findRelatedFiles
  simp only [List.mem_append]
  tauto

/-- The resolver lists every matching todo file. -/
theorem mem_resolve_todo {fs : FS} {uuid t : GoStr} (h1 : t ∈ fs.todoFiles)
    (h2 : goMatchStar uuid jsonExt t = true) :
    RPath.todo t ∈ findRelatedFiles fs uuid := by
  have hpart : RPath.todo t ∈ resolveTodo fs uuid := by
    unfold resolveTodo
    exact List.mem_map.mpr ⟨t, List.mem_filter.mpr ⟨h1, h2⟩, rfl⟩
  unfold findRelatedFiles
  simp only [List.mem_append]
  tauto

/-- The resolver lists the session-env directory when it exists. -/
theorem mem_resolve_env {fs : FS} {uuid : GoStr} (h : uuid ∈ fs.sessionEnvDirs) :
    RPath.sessionEnv uuid ∈ findRelatedFiles fs uuid := by
  have hpart : RPath.sessionEnv uuid ∈ resolveEnv fs uuid := by
    unfold resolveEnv
    rw [if_pos h]
    exact List.mem_singleton.mpr rfl
  unfold findRelatedFiles
  simp only [List.mem_append]
  tauto

/-- The resolver lists the file-history directory when it exists. -/
theorem mem_resolve_hist {fs : FS} {uuid : GoStr} (h : uuid ∈ fs.fileHistoryDirs) :
    RPath.fileHistory uuid ∈ findRelatedFiles fs uuid := by
  have hpart : RPath.fileHistory uuid ∈ resolveHist fs uuid := by
    unfold resolveHist
    rw [if_pos h]
    exact List.mem_singleton.mpr rfl
  unfold findRelatedFiles
  simp only [List.mem_append]
  tauto

/-- A filesystem clean of a session resolves it to the empty set. -/
theorem cleanFor_resolve_nil {fs : FS} {uuid : GoStr} (h : cleanFor fs uuid) :
    findRelatedFiles fs uuid = [] := by
  obtain ⟨h1, h2, h3, h4, h5, h6⟩ := h
  have hpm : primaryMatches fs uuid = [] := by
    unfold primaryMatches
    rw [List.filterMap_eq_nil_iff]
    intro p hp
    rw [projFile_none_of_noFile (h1 p hp)]
    rfl
  have htodo : fs.todoFiles.filter (fun t => goMatchStar uuid jsonExt t) = [] := by
    rw [List.filter_eq_nil_iff]
    intro t ht
    simp [h3 t ht]
  unfold findRelatedFiles resolveMain resolvePlan resolveDebug resolveTodo resolveEnv
    resolveHist resolveAgent
  rw [hpm, htodo]
  simp [h2, h4, h5]

/-- Right-hand members of a `Forall₂` have related left-hand partners. -/
theorem forall2_mem_right {α β : Type} {R : α → β → Prop} {l₁ : List α} {l₂ : List β}
    (h : List.Forall₂ R l₁ l₂) : ∀ b ∈ l₂, ∃ a ∈ l₁, R a b := by
  induction h with
  | nil => simp
  | cons hR hF ih =>
    intro b hb
    rcases List.mem_cons.mp hb with rfl | hb2
    · exact ⟨_, List.mem_cons_self _ _, hR⟩
    · obtain ⟨a, ha, hab⟩ := ih b hb2
      exact ⟨a, List.mem_cons_of_mem _ ha, hab⟩

/-- The synchronizer loop keeps every project's name and files and only
removes manifest entries. -/
theorem updIdx_shape (uuid : GoStr) (wf : GoStr → Bool) (ps : List Project) :
    List.Forall₂ (fun p p' => p'.name = p.name ∧ p'.files = p.files ∧
      ∀ e ∈ manEntries p', e ∈ manEntries p) ps (updIdx uuid wf ps).1 := by
  induction ps with
  | nil => exact List.Forall₂.nil
  | cons p ps ih =>
    rcases hman : p.manifest with - | om
    · simp only [updIdx, hman]
      exact List.Forall₂.cons ⟨rfl, rfl, fun e he => he⟩ ih
    · rcases om with - | man
      · simp only [updIdx, hman]
        exact List.Forall₂.cons ⟨rfl, rfl, fun e he => he⟩ ih
      · simp only [updIdx, hman]
        by_cases hlt : (man.entries.filter (fun e => decide (e.sessionId ≠ uuid))).length <
            man.entries.length
        · rw [if_pos hlt]
          by_cases hw : wf p.name
          · rw [if_pos hw]
            exact List.forall₂_same.mpr (fun x _ => ⟨rfl, rfl, fun e he => he⟩)
          · rw [if_neg hw]
            refine List.Forall₂.cons ⟨rfl, rfl, ?_⟩ ih
            intro e he
            simp only [manEntries, hman] at he ⊢
            exact (List.mem_filter.mp he).1
        · rw [if_neg hlt]
          exact List.Forall₂.cons ⟨rfl, rfl, fun e he => he⟩ ih

/-- A successful synchronizer loop leaves no matching entry. -/
theorem updIdx_establish (uuid : GoStr) (wf : GoStr → Bool) (ps : List Project)
    (hok : (updIdx uuid wf ps).2.2 = none) :
    ∀ p' ∈ (updIdx uuid wf ps).1, ∀ e ∈ manEntries p', e.sessionId ≠ uuid := by
  induction ps with
  | nil => simp [updIdx]
  | cons p ps ih =>
    rcases hman : p.manifest with - | om
    · simp only [updIdx, hman] at hok ⊢
      intro p' hp'
      rcases List.mem_cons.mp hp' with rfl | hp2
      · simp [manEntries, hman]
      · exact ih hok p' hp2
    · rcases om with - | man
      · simp only [updIdx, hman] at hok ⊢
        intro p' hp'
        rcases List.mem_cons.mp hp' with rfl | hp2
        · simp [manEntries, hman]
        · exact ih hok p' hp2
      · simp only [updIdx, hman] at hok ⊢
        by_cases hlt : (man.entries.filter (fun e => decide (e.sessionId ≠ uuid))).length <
            man.entries.length
        · rw [if_pos hlt] at hok ⊢
          by_cases hw : wf p.name
          · rw [if_pos hw] at hok
            simp at hok
          · rw [if_neg hw] at hok ⊢
            intro p' hp'
            rcases List.mem_cons.mp hp' with rfl | hp2
            · intro e he
              simp only [manEntries] at he
              have := (List.mem_filter.mp he).2
              simpa using this
            · exact ih hok p' hp2
        · rw [if_neg hlt] at hok ⊢
          have hall : ∀ e ∈ man.entries, e.sessionId ≠ uuid := by
            by_contra hcon
            push_neg at hcon
            obtain ⟨x, hx, hfx⟩ := hcon
            exact hlt (filter_lt_of_exists_false ⟨x, hx, by simp [hfx]⟩)
          intro p' hp'
          rcases List.mem_cons.mp hp' with rfl | hp2
          · intro e he
            simp only [manEntries, hman] at he
            exact hall e he
          · exact ih hok p' hp2

/-- The synchronizer never touches the non-project subtrees. -/
theorem updateSessionsIndex_scalar (fs : FS) (uuid : GoStr) :
    (updateSessionsIndex fs uuid).1.debugFiles = fs.debugFiles ∧
    (updateSessionsIndex fs uuid).1.todoFiles = fs.todoFiles ∧
    (updateSessionsIndex fs uuid).1.sessionEnvDirs = fs.sessionEnvDirs ∧
    (updateSessionsIndex fs uuid).1.fileHistoryDirs = fs.fileHistoryDirs := by
  unfold updateSessionsIndex
  cases fs.projects <;> exact ⟨rfl, rfl, rfl, rfl⟩

/-- Each project surviving the synchronizer descends from an original:
same name and files, a subset of its manifest entries. -/
theorem updateSessionsIndex_projects {fs : FS} {uuid : GoStr} :
    ∀ p' ∈ fsProjects (updateSessionsIndex fs uuid).1, ∃ p ∈ fsProjects fs,
      p'.name = p.name ∧ p'.files = p.files ∧ ∀ e ∈ manEntries p', e ∈ manEntries p := by
  intro p' hp'
  unfold updateSessionsIndex at hp'
  cases hps : fs.projects with
  | none =>
    rw [hps] at hp'
    exact ⟨p', by rw [fsProjects, hps] at hp' ⊢; exact hp', rfl, rfl, fun e he => he⟩
  | some ps =>
    rw [hps] at hp'
    have hshape := updIdx_shape uuid fs.writeFails ps
    have hp2 : p' ∈ (updIdx uuid fs.writeFails ps).1 := hp'
    obtain ⟨p, hp, hrel⟩ := forall2_mem_right hshape p' hp2
    exact ⟨p, by rw [fsProjects, hps]; exact hp, hrel⟩

/-- A successful synchronizer run leaves no manifest entry for the id. -/
theorem updateSessionsIndex_establish {fs : FS} {uuid : GoStr}
    (hok : (updateSessionsIndex fs uuid).2.2 = none) :
    noManifestEntry (updateSessionsIndex fs uuid).1 uuid := by
  unfold updateSessionsIndex at hok ⊢
  cases hps : fs.projects with
  | none => rw [hps] at hok; simp at hok
  | some ps =>
    rw [hps] at hok
    intro p' hp'
    exact updIdx_establish uuid fs.writeFails ps hok p' hp'

/-- The removal loop preserves cleanliness of any session. -/
theorem removeFiles_pres_clean {fs : FS} {l : List RPath} {X : GoStr}
    (h : cleanFor fs X) : cleanFor (removeFiles fs l).1 X := by
  obtain ⟨h1, h2, h3, h4, h5, h6⟩ := h
  refine ⟨?_, ?_, ?_, ?_, ?_, ?_⟩
  · intro p' hp' f hf
    obtain ⟨p, hp, -, hfl, -⟩ := removeFiles_projects p' hp'
    exact h1 p hp f (hfl f hf)
  · exact fun hc => h2 (removeFiles_debug_sub hc)
  · exact fun t ht => h3 t (removeFiles_todo_sub ht)
  · exact fun hc => h4 (removeFiles_env_sub hc)
  · exact fun hc => h5 (removeFiles_hist_sub hc)
  · intro p' hp' e he
    obtain ⟨p, hp, -, -, hman⟩ := removeFiles_projects p' hp'
    have hme : manEntries p' = manEntries p := by unfold manEntries; rw [hman]
    exact h6 p hp e (hme ▸ he)

/-- The synchronizer preserves cleanliness of any session. -/
theorem updateSessionsIndex_pres_clean {fs : FS} {u X : GoStr}
    (h : cleanFor fs X) : cleanFor (updateSessionsIndex fs u).1 X := by
  obtain ⟨h1, h2, h3, h4, h5, h6⟩ := h
  obtain ⟨hd, ht, henv, hh⟩ := updateSessionsIndex_scalar fs u
  refine ⟨?_, by rw [hd]; exact h2, ?_, by rw [henv]; exact h4, by rw [hh]; exact h5, ?_⟩
  · intro p' hp' f hf
    obtain ⟨p, hp, -, hfeq, -⟩ := updateSessionsIndex_projects p' hp'
    exact h1 p hp f (hfeq ▸ hf)
  · intro t htm
    exact h3 t (ht ▸ htm)
  · intro p' hp' e he2
    obtain ⟨p, hp, -, -, hsub⟩ := updateSessionsIndex_projects p' hp'
    exact h6 p hp e (hsub e he2)

/-- A whole deletion step preserves cleanliness of any session. -/
theorem delStep_pres_clean {fs : FS} {chat : Chat} {X : GoStr}
    (h : cleanFor fs X) : cleanFor (delStep fs chat).1 X := by
  unfold delStep
  split
  · rename_i fs1 p heq
    have hr := removeFiles_pres_clean (l := findRelatedFiles fs chat.uuid) h
    rw [heq] at hr
    exact hr
  · rename_i fs1 heq
    have hr : cleanFor fs1 X := by
      have hr0 := removeFiles_pres_clean (l := findRelatedFiles fs chat.uuid) h
      rw [heq] at hr0
      exact hr0
    split
    · rename_i fs2 w e heq2
      have hu := updateSessionsIndex_pres_clean (u := chat.uuid) hr
      rw [heq2] at hu
      exact hu
    · rename_i fs2 w heq2
      have hu := updateSessionsIndex_pres_clean (u := chat.uuid) hr
      rw [heq2] at hu
      exact hu

/-- A successful deletion step leaves the deleted session clean: no
primary file anywhere, no debug log, no matching todo file, no env or
history directory, no manifest entry. -/
theorem delStep_clean {fs : FS} {chat : Chat}
    (hok : (delStep fs chat).2 = none) : cleanFor (delStep fs chat).1 chat.uuid := by
  unfold delStep at hok ⊢
  split at hok
  · simp at hok
  · rename_i fs1 heq
    have hok1 : (removeFiles fs (findRelatedFiles fs chat.uuid)).2 = none := by rw [heq]
    have h1 : ∀ p' ∈ fsProjects fs1, ∀ f ∈ p'.files, f.1 ≠ chat.uuid ++ jsonlExt := by
      intro p' hp' f hf
      obtain ⟨p, hp, hname, hfl, -⟩ :=
        removeFiles_projects (l := findRelatedFiles fs chat.uuid) p' (by rw [heq]; exact hp')
      by_cases hhas : ∃ f0 ∈ p.files, f0.1 = chat.uuid ++ jsonlExt
      · obtain ⟨node, hnode⟩ := projFile_isSome_of_mem hhas
        have hres := removeFiles_hits_session (mem_resolve_session hp hnode) hok1
        rw [heq] at hres
        exact hres p' hp' hname f hf
      · exact fun heqf => hhas ⟨f, hfl f hf, heqf⟩
    have h2 : (chat.uuid ++ txtExt) ∉ fs1.debugFiles := by
      by_cases hmem : (chat.uuid ++ txtExt) ∈ fs.debugFiles
      · have hres := removeFiles_hits_debug (mem_resolve_debug hmem) hok1
        rw [heq] at hres
        exact hres
      · intro hc
        exact hmem (removeFiles_debug_sub (l := findRelatedFiles fs chat.uuid)
          (by rw [heq]; exact hc))
    have h3 : ∀ t ∈ fs1.todoFiles, goMatchStar chat.uuid jsonExt t = false := by
      intro t ht
      by_cases hm : goMatchStar chat.uuid jsonExt t = true
      · have htf : t ∈ fs.todoFiles :=
          removeFiles_todo_sub (l := findRelatedFiles fs chat.uuid) (by rw [heq]; exact ht)
        have hres := removeFiles_hits_todo (mem_resolve_todo htf hm) hok1
        rw [heq] at hres
        exact absurd ht hres
      · exact Bool.eq_false_iff.mpr hm
    have h4 : chat.uuid ∉ fs1.sessionEnvDirs := by
      by_cases hmem : chat.uuid ∈ fs.sessionEnvDirs
      · have hres := removeFiles_hits_env (mem_resolve_env hmem) hok1
        rw [heq] at hres
        exact hres
      · intro hc
        exact hmem (removeFiles_env_sub (l := findRelatedFiles fs chat.uuid)
          (by rw [heq]; exact hc))
    have h5 : chat.uuid ∉ fs1.fileHistoryDirs := by
      by_cases hmem : chat.uuid ∈ fs.fileHistoryDirs
      · have hres := removeFiles_hits_hist (mem_resolve_hist hmem) hok1
        rw [heq] at hres
        exact hres
      · intro hc
        exact hmem (removeFiles_hist_sub (l := findRelatedFiles fs chat.uuid)
          (by rw [heq]; exact hc))
    split at hok
    · simp at hok
    · rename_i fs2 w heq2
      obtain ⟨hd, ht, henv, hh⟩ := updateSessionsIndex_scalar fs1 chat.uuid
      rw [heq2] at hd ht henv hh
      refine ⟨?_, by rw [show (fs2, (none : Option DelErr)).1.debugFiles =
          fs1.debugFiles from hd]; exact h2, ?_, ?_, ?_, ?_⟩
      · intro p' hp' f hf
        obtain ⟨p, hp, -, hfeq, -⟩ :=
          @updateSessionsIndex_projects fs1 chat.uuid _ (by rw [heq2]; exact hp')
        exact h1 p hp f (hfeq ▸ hf)
      · intro t htm
        exact h3 t (ht ▸ htm)
      · rw [show (fs2, (none : Option DelErr)).1.sessionEnvDirs =
          fs1.sessionEnvDirs from henv]
        exact h4
      · rw [show (fs2, (none : Option DelErr)).1.fileHistoryDirs =
          fs1.fileHistoryDirs from hh]
        exact h5
      · have hest := @updateSessionsIndex_establish fs1 chat.uuid (by rw [heq2])
        rw [heq2] at hest
        exact hest

/-- A successful batch run preserves cleanliness of any session. -/
theorem run_pres_clean {chats : List Chat} {X : GoStr} :
    ∀ batch fs count fs' n, cleanFor fs X →
      deleteSelectedChats chats batch fs count = some (fs', DelMsg.complete n) →
      cleanFor fs' X := by
  intro batch
  induction batch with
  | nil =>
    intro fs count fs' n hc h
    rw [deleteSelectedChats] at h
    exact (Prod.mk.inj (Option.some.inj h)).1 ▸ hc
  | cons idx rest ih =>
    intro fs count fs' n hc h
    rw [deleteSelectedChats] at h
    by_cases h1 : idx < (chats.length : Int)
    · rw [dif_pos h1] at h
      by_cases h2 : idx < 0
      · rw [dif_pos h2] at h
        exact Option.noConfusion h
      · rw [dif_neg h2] at h
        split at h
        · exact absurd (Prod.mk.inj (Option.some.inj h)).2 (by simp)
        · rename_i fs1 heq
          have h3 := @delStep_pres_clean fs (chats.get ⟨idx.toNat, by omega⟩) X hc
          rw [heq] at h3
          exact ih fs1 (count + 1) fs' n h3 h
    · rw [dif_neg h1] at h
      exact ih fs count fs' n hc h

/-- Every validly-selected session of a successful batch is clean in the
final filesystem. -/
theorem run_clean_each {chats : List Chat} :
    ∀ batch fs count fs' n,
      deleteSelectedChats chats batch fs count = some (fs', DelMsg.complete n) →
      ∀ idx ∈ batch, idx < (chats.length : Int) →
        ∀ chat, chats[idx.toNat]? = some chat → cleanFor fs' chat.uuid := by
  intro batch
  induction batch with
  | nil =>
    intro fs count fs' n h idx hin
    simp at hin
  | cons idx0 rest ih =>
    intro fs count fs' n h idx hin hbound chat hchat
    rw [deleteSelectedChats] at h
    by_cases h1 : idx0 < (chats.length : Int)
    · rw [dif_pos h1] at h
      by_cases h2 : idx0 < 0
      · rw [dif_pos h2] at h
        exact Option.noConfusion h
      · rw [dif_neg h2] at h
        split at h
        · exact absurd (Prod.mk.inj (Option.some.inj h)).2 (by simp)
        · rename_i fs1 heq
          rcases List.mem_cons.mp hin with rfl | hin2
          · have hb : idx.toNat < chats.length := by omega
            have hgete : chats[idx.toNat]? = some (chats.get ⟨idx.toNat, hb⟩) := by
              rw [List.getElem?_eq_getElem hb]
              rfl
            have hchat2 : chat = chats.get ⟨idx.toNat, hb⟩ := by
              rw [hchat] at hgete
              exact Option.some.inj hgete
            subst hchat2
            have hok : (delStep fs (chats.get ⟨idx.toNat, hb⟩)).2 = none := by
              rw [heq]
            have hclean1 := delStep_clean hok
            rw [heq] at hclean1
            exact run_pres_clean rest fs1 (count + 1) fs' n hclean1 h
          · exact ih fs1 (count + 1) fs' n h idx hin2 hbound chat hchat
    · rw [dif_neg h1] at h
      rcases List.mem_cons.mp hin with rfl | hin2
      · exact absurd hbound h1
      · exact ih fs count fs' n h idx hin2 hbound chat hchat

/-- C2: after a successfully completed deletion batch, re-running the
resolver for any session of the batch against the mutated filesystem
yields the empty set of paths, and no entry with that session id remains
in any project's manifest. -/
theorem claim_C2 (chats : List Chat) (batch : List Int) (fs fs' : FS) (n : Nat)
    (h : deleteSelectedChats chats batch fs 0 = some (fs', DelMsg.complete n)) :
    ∀ idx ∈ batch, idx < (chats.length : Int) →
      ∀ chat, chats[idx.toNat]? = some chat →
        findRelatedFiles fs' chat.uuid = [] ∧ noManifestEntry fs' chat.uuid := by
  intro idx hin hb chat hchat
  have hc := run_clean_each batch fs 0 fs' n h idx hin hb chat hchat
  exact ⟨cleanFor_resolve_nil hc, hc.2.2.2.2.2⟩

/-- Witness for C2 at a concrete one-session batch owning every kind of
related file. -/
theorem claim_C2_witness :
    findRelatedFiles fsW2after chatW2.uuid = [] ∧ noManifestEntry fsW2after chatW2.uuid :=
  claim_C2 [chatW2] [0] fsW2 fsW2after 1 rfl 0 (by decide) (by decide) chatW2 rfl
